import Mathlib

/-!
Verification of the generational archive retention scheduler
(`archive-file.py`): the tracker store (`read_tracker` / `write_tracker`),
the retention planner (`get_plan`), and the lifecycle helpers
(`add_new_file`, `get_archive_path`).

The embedding is a shallow one over `List Char`:
* a text stream is a list of lines, each a `List Char` without its
  trailing newline (each `write(... + newline)` in the source emits exactly
  one line, and the file iterator yields one line at a time);
* Python `str.strip`, `str.split`, `str.startswith`, `int(...)` and
  `float(...)` are modelled by executable functions below;
* Python dicts are insertion-ordered association lists; dict assignment
  updates in place when the key exists and appends otherwise;
* Python float values are modelled as exact decimals `num / 10 ^ exp`
  (`PyFloat`); the source only ever handles version numbers like `2.0`,
  which are exact in binary64, so binary64 rounding is not modelled;
* fallible code returns `Except PyErr`.
-/

/-- A Python string, as its list of characters. -/
abbrev Chars := List Char

/-- The characters removed by Python `str.strip()` (ASCII whitespace;
Unicode-only whitespace is not used by this program). -/
def isPySpace (c : Char) : Bool :=
  c = ' ' || c = '\t' || c = '\n' || c = '\r' || c = '\x0b' || c = '\x0c'

/-- `s.lstrip()`. -/
def pyStripLeft (s : Chars) : Chars := s.dropWhile isPySpace

/-- `s.rstrip()`. -/
def pyStripRight (s : Chars) : Chars := (s.reverse.dropWhile isPySpace).reverse

/-- Python `s.strip()`. -/
def pyStrip (s : Chars) : Chars := pyStripRight (pyStripLeft s)

/-- Python `s.split(sep)` for a single-character separator: splits on every
occurrence, keeping empty fields (`"".split` gives one empty field). -/
def splitChar (sep : Char) : Chars → List Chars
  | [] => [[]]
  | c :: rest =>
    if c = sep then [] :: splitChar sep rest
    else
      match splitChar sep rest with
      | [] => [[c]]
      | f :: r => (c :: f) :: r

/-- Numeric value of a digit character. -/
def digitVal (c : Char) : Nat := c.toNat - '0'.toNat

/-- Value of a string of decimal digits (most significant first). -/
def digitsVal (s : Chars) : Nat := s.foldl (fun acc c => 10 * acc + digitVal c) 0

/-- Parse a nonempty all-digit string. -/
def parseDigits (s : Chars) : Option Nat :=
  if s ≠ [] ∧ s.all Char.isDigit then some (digitsVal s) else none

/-- Python `int(s)`: strip whitespace, optional sign, decimal digits.
(Underscore digit separators, which Python also accepts, are not used by
this program's own output and are not modelled.) -/
def parseInt (s : Chars) : Option Int :=
  let t := pyStrip s
  match t with
  | '-' :: rest => (parseDigits rest).map (fun n => -(n : Int))
  | '+' :: rest => (parseDigits rest).map (fun n => (n : Int))
  | _ => (parseDigits t).map (fun n => (n : Int))

/-- A Python float holding an exactly-representable decimal value
`num / 10 ^ exp`.  The program only ever computes with version numbers of
this shape (`1.0`, `2.0`, ...), for which binary64 arithmetic and
comparison agree with exact decimal arithmetic. -/
structure PyFloat where
  num : Int
  exp : Nat
deriving DecidableEq, Repr

/-- The rational value of a `PyFloat`. -/
def PyFloat.toRat (v : PyFloat) : ℚ := (v.num : ℚ) / (10 : ℚ) ^ v.exp

/-- Python `float(s)` on decimal forms `[sign] digits [. digits]` or
`[sign] . digits`.  (Exponent, `inf`/`nan` and hex forms are accepted by
Python but never produced by this program and are not modelled.) -/
def parseFloat (s : Chars) : Option PyFloat :=
  let t := pyStrip s
  let sgn : Int := match t with | '-' :: _ => -1 | _ => 1
  let t := match t with | '-' :: r => r | '+' :: r => r | _ => t
  let ip := t.takeWhile Char.isDigit
  let rest := t.drop ip.length
  match rest with
  | [] => if ip = [] then none else some ⟨sgn * digitsVal ip, 0⟩
  | '.' :: fr =>
    if fr.all Char.isDigit ∧ (ip ≠ [] ∨ fr ≠ []) then
      some ⟨sgn * ((digitsVal ip) * 10 ^ fr.length + digitsVal fr), fr.length⟩
    else none
  | _ => none

/-- Decimal digits of a natural number, most significant first; the
recursion is on a fuel bound (`n + 1` always suffices) so that the
function is structurally recursive and kernel-evaluable. -/
def natCharsAux : Nat → Nat → Chars
  | 0, _ => []
  | fuel + 1, n =>
    if n < 10 then [Char.ofNat ('0'.toNat + n)]
    else natCharsAux fuel (n / 10) ++ [Char.ofNat ('0'.toNat + n % 10)]

/-- Python `str` of a nonnegative int. -/
def natChars (n : Nat) : Chars := natCharsAux (n + 1) n

/-- Python `str(i)` for an int (the `format` conversion used on
timestamps and copy numbers). -/
def intChars (i : Int) : Chars :=
  if i < 0 then '-' :: natChars i.natAbs else natChars i.toNat

/-- One archive reference: a line's timestamp and filename. -/
structure Archive where
  timestamp : Int
  file : Chars
deriving DecidableEq, Repr

/-- A tracker section: a Python dict from period name to its copies list
(insertion-ordered association list; `None` entries are empty slots). -/
abbrev TSection := List (Chars × List (Option Archive))

/-- The whole tracker: a dict from group name to its section. -/
abbrev Tracker := List (Chars × TSection)

/-- Python dict lookup `m[k]` / `m.get(k)` as an `Option`. -/
def aget {β : Type} (m : List (Chars × β)) (k : Chars) : Option β :=
  match m with
  | [] => none
  | (k', v) :: rest => if k' = k then some v else aget rest k

/-- Python `m.get(k, d)`. -/
def agetD {β : Type} (m : List (Chars × β)) (k : Chars) (d : β) : β :=
  (aget m k).getD d

/-- Python dict assignment `m[k] = v`: replace in place if the key exists
(keeping its position), append otherwise. -/
def aset {β : Type} (m : List (Chars × β)) (k : Chars) (v : β) : List (Chars × β) :=
  match m with
  | [] => [(k, v)]
  | (k', v') :: rest => if k' = k then (k, v) :: rest else (k', v') :: aset rest k v

/-- The failure modes of the embedded code: the distinct `fail(...)` call
sites of the source (format trouble vs. version incompatibility), plus the
uncaught Python exceptions the source can raise. -/
inductive PyErr where
  | formatError
  | versionError
  | valueError
  | indexError
  | unboundLocalError
deriving DecidableEq, Repr

/-- Python list item assignment `l[i] = a` with negative-index semantics:
a negative index counts from the end, and an out-of-range index raises
`IndexError`. -/
def pySetElem {α : Type} (l : List α) (i : Int) (a : α) : Except PyErr (List α) :=
  let n : Int := l.length
  let j := if i < 0 then i + n else i
  if 0 ≤ j ∧ j < n then Except.ok (l.set j.toNat a) else Except.error .indexError

/-- The `while len(copies) < copy: copies.append(None)` padding loop. -/
def padCopies (l : List (Option Archive)) (c : Int) : List (Option Archive) :=
  l ++ List.replicate (c - (l.length : Int)).toNat none

/-- `s.startswith(pre)`. -/
def pyStartsWith (s pre : Chars) : Bool := pre.isPrefixOf s

/-- `s.endswith(suf)`. -/
def pyEndsWith (s suf : Chars) : Bool := suf.isSuffixOf s

/-- The source's version-compatibility test
`version > expected_version or expected_version - version >= 1.0`,
evaluated exactly on the decimal values (comparisons cross-multiplied by
the positive powers of ten). -/
def versionIncompatible (v e : PyFloat) : Bool :=
  (v.num * 10 ^ e.exp > e.num * 10 ^ v.exp) ||
    (e.num * 10 ^ v.exp - v.num * 10 ^ e.exp ≥ 10 ^ (e.exp + v.exp))

/-- Python falsiness of the `version` variable (`if not version`):
still `None`, or equal to `0.0`. -/
def versionFalsy : Option PyFloat → Bool
  | none => true
  | some v => v.num = 0

/-- The loop state of `read_tracker`: the mutable locals
`version`, `tracker`, `section`, `path`. -/
structure RState where
  version : Option PyFloat
  tracker : Tracker
  sec : TSection
  path : Option Chars

/-- The `if section and path: tracker[path] = section` save of the
pending section (both at a section header and at end of stream). -/
def flushSection (st : RState) : Tracker :=
  match st.path with
  | none => st.tracker
  | some p => if st.sec ≠ [] ∧ p ≠ [] then aset st.tracker p st.sec else st.tracker

/-- One iteration of the `read_tracker` line loop. -/
def readStep (periods : List (Chars × Nat)) (expected : PyFloat) (st : RState)
    (lineRaw : Chars) : Except PyErr RState :=
  let header := pyStartsWith lineRaw ['>']
  let sectionHeader := ! pyStartsWith lineRaw ['\t']
  let line := pyStrip lineRaw
  if line = [] then .ok st
  else if header then
    if pyStartsWith line (">version=".data) then
      match parseFloat (line.drop 9) with
      | none => .error .valueError
      | some v =>
        if versionIncompatible v expected then .error .versionError
        else .ok { st with version := some v }
    else .ok st
  else if sectionHeader then
    if versionFalsy st.version then .error .formatError
    else .ok { version := st.version, tracker := flushSection st, sec := [], path := some line }
  else
    match splitChar '\t' line with
    | [periodRaw, copyS, tsS, fn] =>
      let period := periodRaw.map Char.toLower
      if (aget periods period).isNone then .error .formatError
      else
        match parseInt tsS with
        | none => .error .formatError
        | some ts =>
          match parseInt copyS with
          | none => .error .formatError
          | some copy =>
            if copy > 2000 then .error .formatError
            else
              let copies := padCopies (agetD st.sec period []) copy
              match pySetElem copies (copy - 1) (some ⟨ts, fn⟩) with
              | .error e => .error e
              | .ok copies' => .ok { st with sec := aset st.sec period copies' }
    | _ => .error .formatError

/-- `read_tracker`: fold the line loop over the stream, then save the
last pending section.  `periods` is the known period table (name to
duration), `expected` the implementation's expected version. -/
def readTracker (periods : List (Chars × Nat)) (expected : PyFloat)
    (lines : List Chars) : Except PyErr Tracker := do
  let st ← lines.foldlM (readStep periods expected) ⟨none, [], [], none⟩
  return flushSection st

/-- The duration-ordered period items,
`sorted(periods.items(), key=lambda i: i[1])`.  Python `sorted` is
stable; `List.insertionSort` is a stable sort, so it renders `sorted`
faithfully (including the order of equal-duration periods). -/
def sortedPeriods (periods : List (Chars × Nat)) : List (Chars × Nat) :=
  List.insertionSort (fun a b => a.2 ≤ b.2) periods

/-- `get_ordered_periods`: period names sorted by ascending duration. -/
def getOrderedPeriods (periods : List (Chars × Nat)) : List Chars :=
  (sortedPeriods periods).map (·.1)

/-- One persisted data line
`'\t{}\t{}\t{timestamp}\t{file}'.format(period, pos, **archive)`. -/
def dataLine (period : Chars) (pos : Nat) (a : Archive) : Chars :=
  '\t' :: (period ++ '\t' :: (natChars pos ++ '\t' :: (intChars a.timestamp ++ '\t' :: a.file)))

/-- The `(period, 0-based index, archive)` triples `write_tracker` emits
for one section, in emission order: periods in ascending duration order,
within a period the populated slots in list order. -/
def sectionEntries (periods : List (Chars × Nat)) (sec : TSection) :
    List (Chars × Nat × Archive) :=
  (getOrderedPeriods periods).flatMap (fun p =>
    (agetD sec p []).enum.filterMap (fun ia => ia.2.map (fun a => (p, ia.1, a))))

/-- The data lines `write_tracker` emits for one section. -/
def sectionLines (periods : List (Chars × Nat)) (sec : TSection) : List Chars :=
  (sectionEntries periods sec).map (fun e => dataLine e.1 (e.2.1 + 1) e.2.2)

/-- `write_tracker`, as the list of lines it writes: the version header,
then for each group its path line followed by one data line per populated
slot.  `versionStr` is the rendering of the version float (the source's
`VERSION = 2.0` renders as `2.0`); the file-opening `IOError` path is
outside this model of the emitted text. -/
def writeTracker (periods : List (Chars × Nat)) (versionStr : Chars)
    (tr : Tracker) : List Chars :=
  (">version=".data ++ versionStr) :: tr.flatMap (fun g => g.1 :: sectionLines periods g.2)

/-- `os.path.basename` (POSIX): everything after the last slash. -/
def pyBasename (p : Chars) : Chars := (p.reverse.takeWhile (fun c => c ≠ '/')).reverse

/-- `os.path.splitext` on a slash-free name (the source always applies it
to a basename): split at the last dot, except that a name whose every
character before that dot is itself a dot (e.g. `.bashrc`) keeps no
extension. -/
def splitext (name : Chars) : Chars × Chars :=
  let r := name.reverse
  let extRev := r.takeWhile (fun c => c ≠ '.')
  if extRev.length = name.length then (name, [])
  else
    let baseRev := r.drop (extRev.length + 1)
    if baseRev.all (fun c => c = '.') then (name, [])
    else (baseRev.reverse, '.' :: extRev.reverse)

/-- `os.path.join` (POSIX, two arguments). -/
def pyJoin (a b : Chars) : Chars :=
  if pyStartsWith b ['/'] then b
  else if a = [] ∨ a.getLast? = some '/' then a ++ b
  else a ++ '/' :: b

/-- `get_archive_path`.  `timeStr` abstracts the
`datetime.fromtimestamp(now).strftime(...)` rendering of `now`.  On the
explicit-extension branch, when the filename does not end with the
(dot-prefixed) extension the local `base` is never assigned, and its use
in `base+'-'+time_str+ext` raises `UnboundLocalError`. -/
def get_archive_path (targetPath destination : Chars) (ext : Option Chars)
    (timeStr : Chars) : Except PyErr Chars :=
  let filename := pyBasename targetPath
  match ext with
  | none =>
    let be := splitext filename
    .ok (pyJoin destination (be.1 ++ '-' :: (timeStr ++ be.2)))
  | some e0 =>
    let e := if pyStartsWith e0 ['.'] then e0 else '.' :: e0
    if pyEndsWith filename e then
      .ok (pyJoin destination (filename.take (filename.length - e.length) ++ '-' :: (timeStr ++ e)))
    else .error .unboundLocalError

/-- A `wanted` entry: a dict with keys `period` and `copy`. -/
structure Wanted where
  period : Chars
  copy : Nat
deriving DecidableEq, Repr

/-- `add_new_file`: register the archive reference
(timestamp `now`, filename `basename(archive_file_path)`) into every slot
named by `wanted`.  The in-place dict/list mutation of the source is
state passing here; the negative-index behaviour of `copies[copy-1]` is
kept via `pySetElem`. -/
def add_new_file (sec : TSection) (wanted : List Wanted) (archivePath : Chars)
    (now : Int) : Except PyErr TSection :=
  let filename := pyBasename archivePath
  wanted.foldlM (fun s w =>
    let copies := padCopies (agetD s w.period []) (w.copy : Int)
    (pySetElem copies ((w.copy : Int) - 1) (some ⟨now, filename⟩)).map
      (fun c => aset s w.period c)) sec

/-- The archive pool of `get_plan`: every entry of every known period's
copies list (`None` included), deduplicated by value in first-seen order
(`if archive not in all_archives: all_archives.append(archive)`). -/
def poolArchives (periods : List (Chars × Nat)) (sec : TSection) :
    List (Option Archive) :=
  periods.foldl (fun acc pr =>
    (agetD sec pr.1 []).foldl (fun acc a => if a ∈ acc then acc else acc ++ [a]) acc) []

/-- The candidates for slot index `i` (0-based) of a period of duration
`L`: pooled archives inside the half-open window
`now - (i+1)*L < timestamp <= now - i*L` whose file exists at the
destination.  `fileExists f` abstracts
`os.path.isfile(os.path.join(destination, f))`, a pure function of the
tracker-relative filename once the destination is fixed; a missing file
only logs a warning and drops the candidate. -/
def slotCandidates (pool : List (Option Archive)) (fileExists : Chars → Bool)
    (now : Int) (L : Nat) (i : Nat) : List Archive :=
  pool.filterMap (fun a? =>
    match a? with
    | none => none
    | some a =>
      if (now - ((i : Int) + 1) * (L : Int) < a.timestamp ∧
            a.timestamp ≤ now - (i : Int) * (L : Int)) ∧ fileExists a.file
      then some a else none)

/-- `candidates.sort(key=timestamp); candidates[0]` when candidates is
nonempty, `None` otherwise, per slot (`list.sort` is stable, as is
`List.insertionSort`). -/
def chooseOldest (cands : List Archive) : Option Archive :=
  (List.insertionSort (fun a b => a.timestamp ≤ b.timestamp) cands).head?

/-- The copies list `get_plan` builds for one period: one slot per
iteration of `range(0, period_length*required_copies, period_length)`,
which for a positive duration `L` is exactly `i*L` for `i < C` — so slot
`i` (0-based) holds the chosen candidate or `None`.  The source's
`candidates[0].copy()` is the identity on values. -/
def planCopies (pool : List (Option Archive)) (fileExists : Chars → Bool)
    (now : Int) (L : Nat) (C : Nat) : List (Option Archive) :=
  (List.range C).map (fun i => chooseOldest (slotCandidates pool fileExists now L i))

/-- `get_plan`.  The first component is `new_tracker_section`: the loop
over duration-ordered periods assigning `new_tracker_section[period] =
copies` (dict assignment, appended in loop order).  The second is
`wanted`, accumulated in the same loop order: an entry `(period, i+1)`
exactly when slot `i` has no candidate and `i+1 == 1`. -/
def get_plan (sec : TSection) (fileExists : Chars → Bool) (requiredCopies : Nat)
    (periods : List (Chars × Nat)) (now : Int) : TSection × List Wanted :=
  let pool := poolArchives periods sec
  let ordered := sortedPeriods periods
  (ordered.foldl (fun acc pr =>
      aset acc pr.1 (planCopies pool fileExists now pr.2 requiredCopies)) [],
   ordered.flatMap (fun pr =>
     (List.range requiredCopies).filterMap (fun i =>
       if chooseOldest (slotCandidates pool fileExists now pr.2 i) = none ∧ i + 1 = 1
       then some ⟨pr.1, i + 1⟩ else none)))

/-- The version number a raw line declares, when it is a version header
line: the line starts with `>` (checked on the raw line), its stripped
form starts with `>version=`, and the remainder parses as a float.  This
is exactly the path `read_tracker` takes to its version check. -/
def extractVersion (lineRaw : Chars) : Option PyFloat :=
  if pyStartsWith lineRaw ['>'] && pyStartsWith (pyStrip lineRaw) (">version=".data)
  then parseFloat ((pyStrip lineRaw).drop 9) else none

/-- The archive in slot `c` (1-based) of period `p` of a section, when
present and populated. -/
def slotValue (sec : TSection) (p : Chars) (c : Nat) : Option Archive :=
  (agetD sec p []).getD (c - 1) none

/-- A filename survives the line round trip: nonempty with no trailing
whitespace (the line's final `strip` would eat it) and free of tabs and
newlines (field and line separators). -/
def fileNameOk (f : Chars) : Bool :=
  (f.getLast?.map (fun c => !isPySpace c)).getD false &&
    f.all (fun c => c ≠ '\t' && c ≠ '\n')

/-- A period name survives the line round trip: nonempty, not starting
with whitespace (the line's leading `strip` would eat into it), free of
tabs and newlines, and fixed by `str.lower` (the reader lowercases the
field). -/
def periodNameOk (p : Chars) : Bool :=
  (p.head?.map (fun c => !isPySpace c)).getD false &&
    p.all (fun c => c ≠ '\t' && c ≠ '\n') && p.map Char.toLower = p

/-- A group name survives the line round trip: nonempty, not starting
with whitespace or `>` (which would make its line blank-prefixed or a
header), no trailing whitespace, no newlines. -/
def groupNameOk (g : Chars) : Bool :=
  (g.head?.map (fun c => !isPySpace c && c ≠ '>')).getD false &&
    (g.getLast?.map (fun c => !isPySpace c)).getD false &&
    g.all (fun c => c ≠ '\n')

/-- A rendered version number survives the header line round trip:
nonempty, no trailing whitespace, no newlines. -/
def versionStrOk (vs : Chars) : Bool :=
  (vs.getLast?.map (fun c => !isPySpace c)).getD false &&
    vs.all (fun c => c ≠ '\n')

/-- A copies list the store can persist and re-read: copy numbers
(1-based positions) within the reader's sanity bound of 2000, and every
archive's filename well formed. -/
def slotListIOOk (l : List (Option Archive)) : Bool :=
  l.length ≤ 2000 &&
    l.all (fun a? => (a?.map (fun a => fileNameOk a.file)).getD true)

/-- A section the store can persist and re-read: every period key is a
known period (the writer silently skips unknown keys), every list
persistable. -/
def sectionIOOk (periods : List (Chars × Nat)) (sec : TSection) : Bool :=
  sec.all (fun pr => (aget periods pr.1).isSome && slotListIOOk pr.2)

/-- A well-formed period table: distinct, well-formed period names. -/
def periodsOk (periods : List (Chars × Nat)) : Bool :=
  decide ((periods.map (·.1)).Nodup) && periods.all (fun pr => periodNameOk pr.1)

/-- A tracker the store can persist and re-read. -/
def trackerIOOk (periods : List (Chars × Nat)) (tr : Tracker) : Bool :=
  decide ((tr.map (·.1)).Nodup) &&
    tr.all (fun g => groupNameOk g.1 && sectionIOOk periods g.2)

/-- Remove the trailing run of empty slots from a copies list. -/
def dropTrailingNones (l : List (Option Archive)) : List (Option Archive) :=
  (l.reverse.dropWhile (fun a => a.isNone)).reverse

/-- No copies list of the section carries trailing empty padding. -/
def sectionNoPadding (sec : TSection) : Bool :=
  sec.all (fun pr => dropTrailingNones pr.2 = pr.2)

/-- The writer emits at least one data line for this section (exactly
when some known period has a populated slot). -/
def sectionAlive (periods : List (Chars × Nat)) (sec : TSection) : Bool :=
  !(sectionEntries periods sec).isEmpty

/-- The reader's placement of one data-line record into a copies list:
pad with `None` up to the 1-based copy number `i+1`, then assign at
0-based index `i`. -/
def setSlotEntry (l : List (Option Archive)) (i : Nat) (a : Archive) :
    List (Option Archive) :=
  (padCopies l ((i : Int) + 1)).set i (some a)

/-- The reader's state change for one parsed data line. -/
def applyEntry (s : TSection) (en : Chars × Nat × Archive) : TSection :=
  aset s en.1 (setSlotEntry (agetD s en.1 []) en.2.1 en.2.2)

/-- The section the reader reconstructs from one group's emitted data
lines. -/
def rebuildSection (periods : List (Chars × Nat)) (sec : TSection) : TSection :=
  (sectionEntries periods sec).foldl applyEntry []

/-- The populated slots of a copies list as 0-based (index, archive)
pairs, in list order (the inner loop of the writer). -/
def entries0 (l : List (Option Archive)) : List (Nat × Archive) :=
  l.enum.filterMap (fun ia => ia.2.map (fun a => (ia.1, a)))

/-- The populated slots of a copies list, as (1-based position, archive)
pairs. -/
def populatedSlots (l : List (Option Archive)) : List (Nat × Archive) :=
  l.enum.filterMap (fun ia => ia.2.map (fun a => (ia.1 + 1, a)))

/-- The populated slots a tracker holds for group `g`, period `p`. -/
def groupPopulated (tr : Tracker) (g p : Chars) : List (Nat × Archive) :=
  populatedSlots (agetD (agetD tr g []) p [])

/-- A data line's pieces are fit for the reader: known, well-formed
period; copy number within the sanity bound; well-formed filename. -/
def entryOk (periods : List (Chars × Nat)) (en : Chars × Nat × Archive) : Bool :=
  periodNameOk en.1 && (aget periods en.1).isSome &&
    en.2.1 + 1 ≤ 2000 && fileNameOk en.2.2.file

/-- The reader state reached after folding the line blocks of the given
groups (each block: one path line, then the group's data lines) from a
given state: each block saves the pending section and leaves the new
group's reconstruction pending. -/
def endState (periods : List (Chars × Nat)) (st : RState) : Tracker → RState
  | [] => st
  | (g, sec) :: rest =>
    endState periods ⟨st.version, flushSection st, rebuildSection periods sec, some g⟩ rest

/-!
Allocation-instrumented planner, for the aliasing/no-mutation claim.
Python's `get_plan` returns a section whose slot lists are freshly built
(`copies = []` per period) and whose populated slots hold
`candidates[0].copy()`, a fresh dict.  To state "the result shares no
slot list and no archive record with the input" in a pure embedding,
each list and each archive dict carries the address of its Python
object; the planner threads an allocation counter and stamps every list
and every copied dict with a fresh address.  Values (timestamps,
filenames) are untouched: the instrumentation only records identity.
-/

/-- An archive dict together with its object address. -/
structure AArchive where
  aid : Nat
  timestamp : Int
  file : Chars
deriving DecidableEq, Repr

/-- The value of an instrumented archive (what Python `==` compares). -/
def AArchive.val (a : AArchive) : Archive := ⟨a.timestamp, a.file⟩

/-- An instrumented section: each period's copies list carries the
address of the list object. -/
abbrev IdSection := List (Chars × (Nat × List (Option AArchive)))

/-- Python `==` on optional archive dicts (value equality; addresses do
not participate). -/
def optValEq (a b : Option AArchive) : Bool :=
  match a, b with
  | none, none => true
  | some a, some b => a.val = b.val
  | _, _ => false

/-- The pooling loop of `get_plan`, instrumented: `in` dedups by value,
and the pool holds the original objects (no copies yet). -/
def poolArchivesA (periods : List (Chars × Nat)) (sec : IdSection) :
    List (Option AArchive) :=
  periods.foldl (fun acc pr =>
    (agetD sec pr.1 (0, [])).2.foldl
      (fun acc a => if acc.any (fun b => optValEq b a) then acc else acc ++ [a]) acc) []

/-- Instrumented slot candidates (same filter as `slotCandidates`). -/
def slotCandidatesA (pool : List (Option AArchive)) (fe : Chars → Bool)
    (now : Int) (L : Nat) (i : Nat) : List AArchive :=
  pool.filterMap (fun a? =>
    match a? with
    | none => none
    | some a =>
      if (now - ((i : Int) + 1) * (L : Int) < a.timestamp ∧
            a.timestamp ≤ now - (i : Int) * (L : Int)) ∧ fe a.file
      then some a else none)

/-- Instrumented `candidates.sort(...); candidates[0]`. -/
def chooseOldestA (cands : List AArchive) : Option AArchive :=
  (List.insertionSort (fun a b => a.timestamp ≤ b.timestamp) cands).head?

/-- The instrumented slot loop for one period: each chosen candidate is
`.copy()`-ed, i.e. re-stamped with the next fresh address. -/
def planCopiesA (pool : List (Option AArchive)) (fe : Chars → Bool) (now : Int)
    (L : Nat) (C : Nat) (ctr : Nat) : List (Option AArchive) × Nat :=
  (List.range C).foldl (fun acc i =>
    match chooseOldestA (slotCandidatesA pool fe now L i) with
    | some a => (acc.1 ++ [some ⟨acc.2, a.timestamp, a.file⟩], acc.2 + 1)
    | none => (acc.1 ++ [none], acc.2)) ([], ctr)

/-- The instrumented planner: per period, a fresh list address, then the
period's slots with fresh addresses on every copied archive.  `fresh` is
any address bound strictly above every live address. -/
def get_plan_alloc (sec : IdSection) (fe : Chars → Bool) (C : Nat)
    (periods : List (Chars × Nat)) (now : Int) (fresh : Nat) : IdSection × Nat :=
  let pool := poolArchivesA periods sec
  (sortedPeriods periods).foldl (fun acc pr =>
    let copies := planCopiesA pool fe now pr.2 C (acc.2 + 1)
    (aset acc.1 pr.1 (acc.2, copies.1), copies.2)) ([], fresh)

/-- The archive-dict addresses of a copies list. -/
def slotIds (l : List (Option AArchive)) : List Nat :=
  l.filterMap (fun a? => a?.map (·.aid))

/-- Every object address of an instrumented section: its list objects
and its archive dicts. -/
def sectionIds (sec : IdSection) : List Nat :=
  sec.flatMap (fun pr => pr.2.1 :: slotIds pr.2.2)

/-- The program's period table.  `forever` is bound to `NOW - 1`, where
`NOW` is the process-start timestamp, so the table is parameterized by it.
`monthly` and `yearly` are the exact values of the source's float
expressions (`int(60*60*24*365.2425/12)` and `int(60*60*24*365.2425)`,
both exact in binary64 at this magnitude). -/
def PERIODS (nowStart : Nat) : List (Chars × Nat) :=
  [("hourly".data, 60 * 60),
   ("daily".data, 24 * 60 * 60),
   ("weekly".data, 7 * 24 * 60 * 60),
   ("monthly".data, 2629746),
   ("yearly".data, 31556952),
   ("forever".data, nowStart - 1)]

/-- The timestamp order used by the candidate sort is total. -/
instance : IsTotal Archive (fun a b => a.timestamp ≤ b.timestamp) :=
  ⟨fun a b => le_total a.timestamp b.timestamp⟩

/-- The timestamp order used by the candidate sort is transitive. -/
instance : IsTrans Archive (fun a b => a.timestamp ≤ b.timestamp) :=
  ⟨fun _ _ _ hab hbc => le_trans hab hbc⟩

/-! ### Association-list (Python dict) lemmas -/

theorem aget_aset {β : Type} (m : List (Chars × β)) (k k' : Chars) (v : β) :
    aget (aset m k v) k' = if k = k' then some v else aget m k' := by
  induction m with
  | nil => simp [aset, aget]
  | cons hd tl ih =>
    obtain ⟨k₀, v₀⟩ := hd
    by_cases h : k₀ = k
    · subst h
      simp only [aset, if_pos rfl, aget]
      by_cases h' : k₀ = k' <;> simp [h']
    · simp only [aset, if_neg h, aget]
      by_cases h' : k₀ = k'
      · subst h'
        have hne : ¬ k = k₀ := fun hk => h hk.symm
        simp [if_neg hne]
      · simp [if_neg h', ih]

theorem aget_mem {β : Type} {m : List (Chars × β)} {k : Chars} {v : β}
    (h : aget m k = some v) : (k, v) ∈ m := by
  induction m with
  | nil => simp [aget] at h
  | cons hd tl ih =>
    obtain ⟨k₀, v₀⟩ := hd
    simp only [aget] at h
    by_cases hk : k₀ = k
    · subst hk
      rw [if_pos rfl] at h
      injection h with h2
      subst h2
      exact .head _
    · rw [if_neg hk] at h
      exact .tail _ (ih h)

theorem aget_eq_none_of_not_mem {β : Type} {m : List (Chars × β)} {k : Chars}
    (h : k ∉ m.map (·.1)) : aget m k = none := by
  induction m with
  | nil => rfl
  | cons hd tl ih =>
    obtain ⟨k₀, v₀⟩ := hd
    simp only [List.map_cons, List.mem_cons] at h
    push_neg at h
    have hne : ¬ k₀ = k := fun hh => h.1 hh.symm
    simp only [aget, if_neg hne]
    exact ih h.2

theorem aget_isSome_of_mem_keys {β : Type} {m : List (Chars × β)} {k : Chars}
    (h : k ∈ m.map (·.1)) : (aget m k).isSome := by
  induction m with
  | nil => simp at h
  | cons hd tl ih =>
    obtain ⟨k₀, v₀⟩ := hd
    simp only [List.map_cons, List.mem_cons] at h
    by_cases hk : k₀ = k
    · simp [aget, if_pos hk, hk]
    · rcases h with h | h
      · exact absurd h.symm hk
      · simp only [aget, if_neg hk]
        exact ih h

theorem aset_ne_nil {β : Type} (m : List (Chars × β)) (k : Chars) (v : β) :
    aset m k v ≠ [] := by
  cases m with
  | nil => simp [aset]
  | cons hd tl =>
    obtain ⟨k₀, v₀⟩ := hd
    by_cases h : k₀ = k <;> simp [aset, h]

theorem mem_aset {β : Type} {m : List (Chars × β)} {k : Chars} {v : β} {x : Chars × β}
    (h : x ∈ aset m k v) : x ∈ m ∨ x = (k, v) := by
  induction m with
  | nil => simpa [aset] using h
  | cons hd tl ih =>
    obtain ⟨k₀, v₀⟩ := hd
    by_cases hk : k₀ = k
    · subst hk
      have he : aset ((k₀, v₀) :: tl) k₀ v = (k₀, v) :: tl := by simp [aset]
      rw [he, List.mem_cons] at h
      rcases h with h1 | h1
      · exact .inr h1
      · exact .inl (.tail _ h1)
    · have he : aset ((k₀, v₀) :: tl) k v = (k₀, v₀) :: aset tl k v := by simp [aset, hk]
      rw [he, List.mem_cons] at h
      rcases h with h1 | h1
      · exact .inl (h1 ▸ .head _)
      · rcases ih h1 with h2 | h2
        · exact .inl (.tail _ h2)
        · exact .inr h2

theorem aset_of_not_mem {β : Type} {m : List (Chars × β)} {k : Chars} (v : β)
    (h : k ∉ m.map (·.1)) : aset m k v = m ++ [(k, v)] := by
  induction m with
  | nil => rfl
  | cons hd tl ih =>
    obtain ⟨k₀, v₀⟩ := hd
    simp only [List.map_cons, List.mem_cons] at h
    push_neg at h
    have hne : ¬ k₀ = k := fun hh => h.1 hh.symm
    simp only [aset, if_neg hne, List.cons_append, List.cons.injEq, true_and]
    exact ih h.2

/-! ### Planner lemmas -/

theorem aget_foldl_aset_not_mem {β : Type} (f : Chars × Nat → β)
    (l : List (Chars × Nat)) (init : List (Chars × β)) (k : Chars)
    (hk : k ∉ l.map (·.1)) :
    aget (l.foldl (fun acc pr => aset acc pr.1 (f pr)) init) k = aget init k := by
  induction l generalizing init with
  | nil => rfl
  | cons pr rest ih =>
    simp only [List.map_cons, List.mem_cons] at hk
    push_neg at hk
    rw [List.foldl_cons, ih _ hk.2, aget_aset, if_neg (fun hh => hk.1 hh.symm)]

theorem aget_foldl_aset_mem {β : Type} (f : Chars × Nat → β)
    (l : List (Chars × Nat)) (init : List (Chars × β)) (p : Chars) (L : Nat)
    (hmem : (p, L) ∈ l) (hnd : (l.map (·.1)).Nodup) :
    aget (l.foldl (fun acc pr => aset acc pr.1 (f pr)) init) p = some (f (p, L)) := by
  induction l generalizing init with
  | nil => simp at hmem
  | cons pr rest ih =>
    simp only [List.map_cons, List.nodup_cons] at hnd
    rcases List.mem_cons.mp hmem with h | h
    · subst h
      rw [List.foldl_cons, aget_foldl_aset_not_mem _ _ _ _ hnd.1, aget_aset, if_pos rfl]
    · rw [List.foldl_cons]
      exact ih _ h hnd.2

theorem foldl_aset_value {β : Type} (f : Chars × Nat → β) (P : β → Prop)
    (l : List (Chars × Nat)) (init : List (Chars × β))
    (hinit : ∀ x ∈ init, P x.2) (hf : ∀ pr ∈ l, P (f pr)) :
    ∀ x ∈ l.foldl (fun acc pr => aset acc pr.1 (f pr)) init, P x.2 := by
  induction l generalizing init with
  | nil => exact hinit
  | cons pr rest ih =>
    rw [List.foldl_cons]
    refine ih _ (fun x hx => ?_) (fun q hq => hf q (.tail _ hq))
    rcases mem_aset hx with h | h
    · exact hinit _ h
    · rw [h]
      exact hf pr (.head _)

theorem chooseOldest_eq_none_iff (cands : List Archive) :
    chooseOldest cands = none ↔ cands = [] := by
  unfold chooseOldest
  rw [List.head?_eq_none_iff]
  constructor
  · intro h
    have hp := List.perm_insertionSort (fun a b => a.timestamp ≤ b.timestamp) cands
    rw [h] at hp
    exact hp.symm.eq_nil
  · intro h
    subst h
    rfl

theorem chooseOldest_spec {cands : List Archive} {a : Archive}
    (h : chooseOldest cands = some a) :
    a ∈ cands ∧ ∀ b ∈ cands, a.timestamp ≤ b.timestamp := by
  unfold chooseOldest at h
  have hp := List.perm_insertionSort (fun a b => a.timestamp ≤ b.timestamp) cands
  have hsorted : List.Sorted (fun a b : Archive => a.timestamp ≤ b.timestamp)
      (List.insertionSort (fun a b => a.timestamp ≤ b.timestamp) cands) :=
    List.sorted_insertionSort _ cands
  cases hs : List.insertionSort (fun a b : Archive => a.timestamp ≤ b.timestamp) cands with
  | nil => rw [hs] at h; simp at h
  | cons hd tl =>
    rw [hs] at h
    injection h with h
    subst h
    rw [hs] at hp hsorted
    constructor
    · exact hp.mem_iff.mp (List.mem_cons_self _ _)
    · intro b hb
      rcases List.mem_cons.mp (hp.mem_iff.mpr hb) with h' | h'
      · rw [h']
      · exact List.rel_of_sorted_cons hsorted b h'

/-- C10: if an explicit extension override is supplied and, after
prepending a dot when it lacks one, the target file's basename does not
end with that extension, `get_archive_path` raises an uncaught
`UnboundLocalError` (the local `base` is assigned only on the branch
where the filename ends with the extension). -/
theorem C10_get_archive_path_ext_mismatch
    (targetPath destination e0 timeStr : Chars)
    (h : pyEndsWith (pyBasename targetPath)
        (if pyStartsWith e0 ['.'] then e0 else '.' :: e0) = false) :
    get_archive_path targetPath destination (some e0) timeStr =
      .error .unboundLocalError := by
  simp only [get_archive_path, h]
  simp

/-- Witness for C10 at a concrete input: archiving `dir/file.tar.gz` with
extension override `zip`. -/
theorem C10_witness :
    pyEndsWith (pyBasename "dir/file.tar.gz".data)
        (if pyStartsWith "zip".data ['.'] then "zip".data else '.' :: "zip".data) = false ∧
      get_archive_path "dir/file.tar.gz".data "dest".data (some "zip".data)
        "2017-03-23-121700".data = .error .unboundLocalError :=
  ⟨by decide, C10_get_archive_path_ext_mismatch _ _ _ _ (by decide)⟩

/-- C5: for every policy with `required_copies = C` (durations positive,
as required for the source's `range(0, L*C, L)` slot loop to be defined),
every period present in the section returned by planning has a slot list
of length exactly `C`. -/
theorem C5_slot_count_invariant (sec : TSection) (fe : Chars → Bool) (C : Nat)
    (periods : List (Chars × Nat)) (now : Int)
    (_hL : ∀ pr ∈ periods, 0 < pr.2) :
    ∀ pr ∈ (get_plan sec fe C periods now).1, pr.2.length = C := by
  intro pr hpr
  have := foldl_aset_value
    (fun q => planCopies (poolArchives periods sec) fe now q.2 C)
    (fun l => l.length = C) (sortedPeriods periods) [] (by simp)
    (fun q _ => by simp [planCopies]) pr
  exact this (by simpa [get_plan] using hpr)

/-- Witness for C5 on a two-period policy with one stored archive. -/
theorem C5_witness :
    (∀ pr ∈ [("hourly".data, 3600), ("daily".data, 86400)], 0 < pr.2) ∧
      ∀ pr ∈ (get_plan [("hourly".data, [some ⟨999000, "a.txt".data⟩])]
          (fun _ => true) 2 [("hourly".data, 3600), ("daily".data, 86400)]
          1000000).1, pr.2.length = 2 :=
  ⟨by decide, C5_slot_count_invariant _ _ _ _ _ (by decide)⟩

/-- C1: for every period `(p, L)` of the policy and every slot index `i`
from 1 to `C`, planning fills slot `i` of `p` in the new section from the
candidates — archives pooled from every period of the old section whose
timestamp `t` satisfies `now - i*L < t <= now - (i-1)*L` and whose file
exists at the destination: the slot is empty exactly when no pooled
archive qualifies, and a filled slot holds a qualifying candidate of
minimal timestamp.  (Positive durations are required for the source's
`range(0, L*C, L)` slot loop to be defined.) -/
theorem C1_slot_fill (sec : TSection) (fe : Chars → Bool) (C : Nat)
    (periods : List (Chars × Nat)) (now : Int) (p : Chars) (L : Nat) (i : Nat)
    (_hL : ∀ pr ∈ periods, 0 < pr.2)
    (hnd : (periods.map (·.1)).Nodup)
    (hmem : (p, L) ∈ periods) (h1 : 1 ≤ i) (hC : i ≤ C) :
    (slotValue (get_plan sec fe C periods now).1 p i = none ↔
        slotCandidates (poolArchives periods sec) fe now L (i - 1) = []) ∧
      ∀ a, slotValue (get_plan sec fe C periods now).1 p i = some a →
        a ∈ slotCandidates (poolArchives periods sec) fe now L (i - 1) ∧
          ∀ b ∈ slotCandidates (poolArchives periods sec) fe now L (i - 1),
            a.timestamp ≤ b.timestamp := by
  have hst : (p, L) ∈ sortedPeriods periods :=
    ((List.perm_insertionSort _ periods).mem_iff).mpr hmem
  have hndst : ((sortedPeriods periods).map (·.1)).Nodup :=
    (((List.perm_insertionSort _ periods)).map (·.1)).nodup_iff.mpr hnd
  have hget : aget (get_plan sec fe C periods now).1 p =
      some (planCopies (poolArchives periods sec) fe now L C) := by
    simp only [get_plan]
    exact aget_foldl_aset_mem _ _ _ p L hst hndst
  have hslot : slotValue (get_plan sec fe C periods now).1 p i =
      chooseOldest (slotCandidates (poolArchives periods sec) fe now L (i - 1)) := by
    rw [slotValue, agetD, hget, Option.getD_some, planCopies,
      List.getD_eq_getElem?_getD, List.getElem?_map,
      List.getElem?_range (by omega : i - 1 < C)]
    rfl
  rw [hslot]
  exact ⟨chooseOldest_eq_none_iff _, fun a ha => chooseOldest_spec ha⟩

/-- Witness for C1: slot 1 of the hourly period, one stored archive at
timestamp 999000, `now = 1000000`. -/
theorem C1_witness :
    ((∀ pr ∈ [("hourly".data, 3600), ("daily".data, 86400)], 0 < pr.2) ∧
      ([("hourly".data, 3600), ("daily".data, 86400)].map (·.1)).Nodup ∧
      ("hourly".data, 3600) ∈ [("hourly".data, 3600), ("daily".data, 86400)] ∧
      1 ≤ 1 ∧ 1 ≤ 2) ∧
    ((slotValue (get_plan [("hourly".data, [some ⟨999000, "a.txt".data⟩])]
          (fun _ => true) 2 [("hourly".data, 3600), ("daily".data, 86400)] 1000000).1
        "hourly".data 1 = none ↔
        slotCandidates (poolArchives [("hourly".data, 3600), ("daily".data, 86400)]
            [("hourly".data, [some ⟨999000, "a.txt".data⟩])])
          (fun _ => true) 1000000 3600 (1 - 1) = []) ∧
      ∀ a, slotValue (get_plan [("hourly".data, [some ⟨999000, "a.txt".data⟩])]
          (fun _ => true) 2 [("hourly".data, 3600), ("daily".data, 86400)] 1000000).1
          "hourly".data 1 = some a →
        a ∈ slotCandidates (poolArchives [("hourly".data, 3600), ("daily".data, 86400)]
            [("hourly".data, [some ⟨999000, "a.txt".data⟩])])
          (fun _ => true) 1000000 3600 (1 - 1) ∧
          ∀ b ∈ slotCandidates (poolArchives [("hourly".data, 3600), ("daily".data, 86400)]
              [("hourly".data, [some ⟨999000, "a.txt".data⟩])])
            (fun _ => true) 1000000 3600 (1 - 1),
            a.timestamp ≤ b.timestamp) :=
  ⟨⟨by decide, by decide, by decide, by decide, by decide⟩,
    C1_slot_fill _ _ _ _ _ _ _ _ (by decide) (by decide) (by decide)
      (by decide) (by decide)⟩

theorem dedup_fold_all_none (inner : List (Option Archive))
    (hinner : ∀ a ∈ inner, a = none) :
    ∀ (acc : List (Option Archive)), (∀ x ∈ acc, x = none) →
      ∀ x ∈ inner.foldl (fun acc a => if a ∈ acc then acc else acc ++ [a]) acc,
        x = none := by
  induction inner with
  | nil => intro acc hacc; exact hacc
  | cons a rest ih =>
    intro acc hacc
    rw [List.foldl_cons]
    refine ih (fun x hx => hinner x (.tail _ hx)) _ ?_
    intro x hx
    by_cases hmem : a ∈ acc
    · rw [if_pos hmem] at hx
      exact hacc x hx
    · rw [if_neg hmem] at hx
      rcases List.mem_append.mp hx with h | h
      · exact hacc x h
      · rw [List.mem_singleton.mp h]
        exact hinner a (.head _)

theorem poolArchives_all_none (periods : List (Chars × Nat)) (sec : TSection)
    (h : ∀ pr ∈ sec, ∀ a ∈ pr.2, a = none) :
    ∀ x ∈ poolArchives periods sec, x = none := by
  have H : ∀ (l : List (Chars × Nat)) (acc : List (Option Archive)),
      (∀ x ∈ acc, x = none) →
      ∀ x ∈ l.foldl (fun acc pr => (agetD sec pr.1 []).foldl
          (fun acc a => if a ∈ acc then acc else acc ++ [a]) acc) acc, x = none := by
    intro l
    induction l with
    | nil => intro acc hacc; exact hacc
    | cons pr rest ih =>
      intro acc hacc
      rw [List.foldl_cons]
      refine ih _ (dedup_fold_all_none _ ?_ _ hacc)
      intro a ha
      unfold agetD at ha
      cases hg : aget sec pr.1 with
      | none => rw [hg] at ha; simp at ha
      | some L =>
        rw [hg] at ha
        simp only [Option.getD_some] at ha
        exact h _ (aget_mem hg) a ha
  exact H periods [] (by simp)

theorem slotCandidates_of_all_none {pool : List (Option Archive)}
    (h : ∀ x ∈ pool, x = none) (fe : Chars → Bool) (now : Int) (L i : Nat) :
    slotCandidates pool fe now L i = [] :=
  List.filterMap_eq_nil_iff.mpr (fun a ha => by rw [h a ha])

theorem flatMap_singleton_map {α β : Type} (g : α → β) (l : List α) :
    l.flatMap (fun x => [g x]) = l.map g := by
  induction l with
  | nil => rfl
  | cons a rest ih => simp [ih]

/-- C4: an empty slot is added to `wanted` only at index 1 (every wanted
entry has copy number 1); and planning over a section with zero existing
archives yields exactly one copy-1 entry per period (in duration order)
and no populated slots in the new section, provided at least one copy is
required. -/
theorem C4_wanted_copy_one (sec : TSection) (fe : Chars → Bool) (C : Nat)
    (periods : List (Chars × Nat)) (now : Int)
    (_hL : ∀ pr ∈ periods, 0 < pr.2) :
    (∀ w ∈ (get_plan sec fe C periods now).2, w.copy = 1) ∧
      ((∀ pr ∈ sec, ∀ a ∈ pr.2, a = none) → 1 ≤ C →
        (get_plan sec fe C periods now).2 =
          (sortedPeriods periods).map (fun pr => ⟨pr.1, 1⟩) ∧
        ∀ pr ∈ (get_plan sec fe C periods now).1, ∀ s ∈ pr.2, s = none) := by
  constructor
  · intro w hw
    simp only [get_plan, List.mem_flatMap, List.mem_filterMap] at hw
    obtain ⟨pr, hpr, i, hi, hfi⟩ := hw
    by_cases hcond : chooseOldest (slotCandidates (poolArchives periods sec)
        fe now pr.2 i) = none ∧ i + 1 = 1
    · rw [if_pos hcond] at hfi
      injection hfi with hfi
      rw [← hfi]
      exact hcond.2
    · rw [if_neg hcond] at hfi
      cases hfi
  · intro hnone hC
    have hpool := poolArchives_all_none periods sec hnone
    have hcand : ∀ (L i : Nat),
        slotCandidates (poolArchives periods sec) fe now L i = [] :=
      fun L i => slotCandidates_of_all_none hpool fe now L i
    constructor
    · obtain ⟨C', rfl⟩ : ∃ C', C = C' + 1 := ⟨C - 1, by omega⟩
      have hone : ∀ pr : Chars × Nat, (List.range (C' + 1)).filterMap
          (fun i => if chooseOldest (slotCandidates (poolArchives periods sec)
              fe now pr.2 i) = none ∧ i + 1 = 1
            then some (⟨pr.1, i + 1⟩ : Wanted) else none) = [⟨pr.1, 1⟩] := by
        intro pr
        rw [List.range_succ_eq_map, List.filterMap_cons]
        have h0 : (if chooseOldest (slotCandidates (poolArchives periods sec)
            fe now pr.2 0) = none ∧ 0 + 1 = 1
            then some (⟨pr.1, 0 + 1⟩ : Wanted) else none) = some ⟨pr.1, 1⟩ := by
          rw [if_pos ⟨by rw [hcand]; rfl, rfl⟩]
        rw [h0, List.filterMap_map]
        have hrest : (List.range C').filterMap
            ((fun i => if chooseOldest (slotCandidates (poolArchives periods sec)
              fe now pr.2 i) = none ∧ i + 1 = 1
              then some (⟨pr.1, i + 1⟩ : Wanted) else none) ∘ Nat.succ) = [] := by
          refine List.filterMap_eq_nil_iff.mpr (fun i _ => ?_)
          exact if_neg (fun hh => by omega)
        rw [hrest]
      have hflat : ∀ (l : List (Chars × Nat)),
          l.flatMap (fun pr => (List.range (C' + 1)).filterMap
            (fun i => if chooseOldest (slotCandidates (poolArchives periods sec)
                fe now pr.2 i) = none ∧ i + 1 = 1
              then some (⟨pr.1, i + 1⟩ : Wanted) else none)) =
            l.map (fun pr => (⟨pr.1, 1⟩ : Wanted)) := by
        intro l
        induction l with
        | nil => rfl
        | cons q rest ih => simp only [List.flatMap_cons, List.map_cons, hone q, ih]; rfl
      simpa only [get_plan] using hflat (sortedPeriods periods)
    · intro pr hpr s hs
      refine foldl_aset_value
        (fun q => planCopies (poolArchives periods sec) fe now q.2 C)
        (fun l => ∀ s ∈ l, s = none) (sortedPeriods periods) [] (by simp)
        (fun q _ => ?_) pr (by simpa [get_plan] using hpr) s hs
      intro s' hs'
      simp only [planCopies, List.mem_map] at hs'
      obtain ⟨i, _, rfl⟩ := hs'
      rw [hcand q.2 i]
      rfl

/-- Witness for C4: the cold start of the spec (empty section, periods
hourly and daily, one required copy, `now = 1000000`). -/
theorem C4_witness :
    (∀ pr ∈ [("hourly".data, 3600), ("daily".data, 86400)], 0 < pr.2) ∧
      (get_plan [] (fun _ => true) 1
          [("hourly".data, 3600), ("daily".data, 86400)] 1000000).2 =
        (sortedPeriods [("hourly".data, 3600), ("daily".data, 86400)]).map
          (fun pr => ⟨pr.1, 1⟩) ∧
      ∀ pr ∈ (get_plan [] (fun _ => true) 1
          [("hourly".data, 3600), ("daily".data, 86400)] 1000000).1,
        ∀ s ∈ pr.2, s = none :=
  ⟨by decide,
    (C4_wanted_copy_one [] (fun _ => true) 1
        [("hourly".data, 3600), ("daily".data, 86400)] 1000000 (by decide)).2
      (by simp) (by decide)⟩

theorem padCopies_length (l : List (Option Archive)) (c : Int) :
    (padCopies l c).length = l.length + (c - (l.length : Int)).toNat := by
  simp [padCopies]

theorem add_new_file_fold (arch : Archive) :
    ∀ (wanted : List Wanted) (s : TSection),
      (∀ w ∈ wanted, 1 ≤ w.copy) →
      ∃ s', (wanted.foldlM (fun s w =>
          (pySetElem (padCopies (agetD s w.period []) (w.copy : Int))
            ((w.copy : Int) - 1) (some arch)).map
            (fun c => aset s w.period c)) s : Except PyErr TSection) = .ok s' ∧
        (∀ w ∈ wanted, slotValue s' w.period w.copy = some arch) ∧
        (∀ p c, 1 ≤ c → slotValue s p c = some arch →
          slotValue s' p c = some arch) := by
  intro wanted
  induction wanted with
  | nil =>
    intro s _
    exact ⟨s, rfl, by simp, fun p c _ h => h⟩
  | cons w ws ih =>
    intro s hcopy
    have hw1 : 1 ≤ w.copy := hcopy w (.head _)
    set l := agetD s w.period [] with hl
    have hlen : (w.copy : Int) ≤ (padCopies l (w.copy : Int)).length := by
      rw [padCopies_length]
      omega
    have hidx : w.copy - 1 < (padCopies l (w.copy : Int)).length := by omega
    have hstep : pySetElem (padCopies l (w.copy : Int)) ((w.copy : Int) - 1)
        (some arch) = .ok ((padCopies l (w.copy : Int)).set (w.copy - 1) (some arch)) := by
      have hnn : ¬ ((w.copy : Int) - 1 < 0) := by omega
      simp only [pySetElem, if_neg hnn]
      rw [if_pos (by constructor <;> omega)]
      congr 1
      congr 1
      omega
    set newl := (padCopies l (w.copy : Int)).set (w.copy - 1) (some arch) with hnewl
    obtain ⟨s', hfold, hset, hpres⟩ := ih (aset s w.period newl)
      (fun x hx => hcopy x (.tail _ hx))
    refine ⟨s', ?_, ?_, ?_⟩
    · rw [List.foldlM_cons, hstep]
      simpa using hfold
    · intro x hx
      rcases List.mem_cons.mp hx with h | h
      · subst h
        refine hpres x.period x.copy hw1 ?_
        rw [slotValue, agetD, aget_aset, if_pos rfl, Option.getD_some,
          List.getD_eq_getElem?_getD, hnewl,
          List.getElem?_set_self (by omega), Option.getD_some]
      · exact hset x h
    · intro p c hc hval
      refine hpres p c hc ?_
      by_cases hp : w.period = p
      · subst hp
        rw [slotValue, agetD, aget_aset, if_pos rfl, Option.getD_some]
        rw [slotValue, ← hl] at hval
        rw [List.getD_eq_getElem?_getD] at hval ⊢
        have hcl : c - 1 < l.length := by
          by_contra hcl
          rw [List.getElem?_eq_none (by omega)] at hval
          simp at hval
        have hval' : l[c - 1]? = some (some arch) := by
          cases hlv : l[c - 1]? with
          | none => rw [hlv] at hval; simp at hval
          | some v =>
            rw [hlv] at hval
            simp only [Option.getD_some] at hval
            rw [hval]
        by_cases hcc : c = w.copy
        · subst hcc
          rw [hnewl, List.getElem?_set_self (by omega), Option.getD_some]
        · rw [hnewl, List.getElem?_set_ne (by omega), padCopies,
            List.getElem?_append, if_pos hcl, hval', Option.getD_some]
      · rw [slotValue, agetD, aget_aset, if_neg hp]
        exact hval

/-- C6: registering the single new archive writes the same archive
reference (timestamp `now`, filename the basename of the new archive
file) into slot `copy` of period `period` for every entry of `wanted`,
so one physical copy event satisfies all wanted slots in the same run. -/
theorem C6_register_all_wanted (sec : TSection) (wanted : List Wanted)
    (archivePath : Chars) (now : Int)
    (h : ∀ w ∈ wanted, 1 ≤ w.copy) :
    ∃ sec', add_new_file sec wanted archivePath now = .ok sec' ∧
      ∀ w ∈ wanted, slotValue sec' w.period w.copy =
        some ⟨now, pyBasename archivePath⟩ := by
  obtain ⟨s', hfold, hset, _⟩ :=
    add_new_file_fold ⟨now, pyBasename archivePath⟩ wanted sec h
  exact ⟨s', hfold, hset⟩

/-- Witness for C6: the cold start (hourly and daily both wanted) with
one new archive file; both slots receive the same reference. -/
theorem C6_witness :
    (∀ w ∈ (get_plan [] (fun _ => true) 1
        [("hourly".data, 3600), ("daily".data, 86400)] 1000000).2, 1 ≤ w.copy) ∧
      ∃ sec', add_new_file
          (get_plan [] (fun _ => true) 1
            [("hourly".data, 3600), ("daily".data, 86400)] 1000000).1
          (get_plan [] (fun _ => true) 1
            [("hourly".data, 3600), ("daily".data, 86400)] 1000000).2
          "/backups/data-x.txt".data 1000000 = .ok sec' ∧
        ∀ w ∈ (get_plan [] (fun _ => true) 1
            [("hourly".data, 3600), ("daily".data, 86400)] 1000000).2,
          slotValue sec' w.period w.copy =
            some ⟨1000000, pyBasename "/backups/data-x.txt".data⟩ :=
  ⟨by decide, C6_register_all_wanted _ _ _ _ (by decide)⟩

theorem planCopiesA_fold_spec (pool : List (Option AArchive)) (fe : Chars → Bool)
    (now : Int) (L : Nat) (is : List Nat) :
    ∀ (acc : List (Option AArchive) × Nat),
      acc.2 ≤ (is.foldl (fun acc i =>
          match chooseOldestA (slotCandidatesA pool fe now L i) with
          | some a => (acc.1 ++ [some ⟨acc.2, a.timestamp, a.file⟩], acc.2 + 1)
          | none => (acc.1 ++ [none], acc.2)) acc).2 ∧
      ∀ j ∈ slotIds (is.foldl (fun acc i =>
          match chooseOldestA (slotCandidatesA pool fe now L i) with
          | some a => (acc.1 ++ [some ⟨acc.2, a.timestamp, a.file⟩], acc.2 + 1)
          | none => (acc.1 ++ [none], acc.2)) acc).1,
        j ∈ slotIds acc.1 ∨ acc.2 ≤ j := by
  induction is with
  | nil => intro acc; exact ⟨le_refl _, fun j hj => .inl hj⟩
  | cons i rest ih =>
    intro acc
    rw [List.foldl_cons]
    cases hch : chooseOldestA (slotCandidatesA pool fe now L i) with
    | none =>
      dsimp only
      obtain ⟨h1, h2⟩ := ih (acc.1 ++ [none], acc.2)
      refine ⟨h1, fun j hj => ?_⟩
      rcases h2 j hj with h | h
      · simp only [slotIds, List.filterMap_append] at h
        rcases List.mem_append.mp h with h' | h'
        · exact .inl h'
        · simp [slotIds] at h'
      · exact .inr h
    | some a =>
      dsimp only
      obtain ⟨h1, h2⟩ := ih (acc.1 ++ [some ⟨acc.2, a.timestamp, a.file⟩], acc.2 + 1)
      refine ⟨by omega, fun j hj => ?_⟩
      rcases h2 j hj with h | h
      · simp only [slotIds, List.filterMap_append] at h
        rcases List.mem_append.mp h with h' | h'
        · exact .inl h'
        · simp only [slotIds, List.filterMap_cons] at h'
          simp at h'
          omega
      · exact .inr (by omega)

theorem planCopiesA_spec (pool : List (Option AArchive)) (fe : Chars → Bool)
    (now : Int) (L C : Nat) (ctr : Nat) :
    ctr ≤ (planCopiesA pool fe now L C ctr).2 ∧
      ∀ j ∈ slotIds (planCopiesA pool fe now L C ctr).1, ctr ≤ j := by
  obtain ⟨h1, h2⟩ := planCopiesA_fold_spec pool fe now L (List.range C) ([], ctr)
  refine ⟨h1, fun j hj => ?_⟩
  rcases h2 j hj with h | h
  · simp [slotIds] at h
  · exact h

theorem sectionIds_aset (m : IdSection) (k : Chars)
    (v : Nat × List (Option AArchive)) :
    ∀ j ∈ sectionIds (aset m k v), j ∈ sectionIds m ∨ j ∈ v.1 :: slotIds v.2 := by
  intro j hj
  simp only [sectionIds, List.mem_flatMap] at hj ⊢
  obtain ⟨pr, hpr, hjpr⟩ := hj
  rcases mem_aset hpr with h | h
  · exact .inl ⟨pr, h, hjpr⟩
  · subst h
    exact .inr hjpr

theorem get_plan_alloc_fold_spec (pool : List (Option AArchive)) (fe : Chars → Bool)
    (now : Int) (C : Nat) (l : List (Chars × Nat)) :
    ∀ (acc : IdSection × Nat),
      acc.2 ≤ (l.foldl (fun acc pr =>
          (aset acc.1 pr.1 (acc.2, (planCopiesA pool fe now pr.2 C (acc.2 + 1)).1),
            (planCopiesA pool fe now pr.2 C (acc.2 + 1)).2)) acc).2 ∧
      ∀ j ∈ sectionIds (l.foldl (fun acc pr =>
          (aset acc.1 pr.1 (acc.2, (planCopiesA pool fe now pr.2 C (acc.2 + 1)).1),
            (planCopiesA pool fe now pr.2 C (acc.2 + 1)).2)) acc).1,
        j ∈ sectionIds acc.1 ∨ acc.2 ≤ j := by
  induction l with
  | nil => intro acc; exact ⟨le_refl _, fun j hj => .inl hj⟩
  | cons pr rest ih =>
    intro acc
    rw [List.foldl_cons]
    obtain ⟨hp1, hp2⟩ := planCopiesA_spec pool fe now pr.2 C (acc.2 + 1)
    obtain ⟨h1, h2⟩ := ih
      (aset acc.1 pr.1 (acc.2, (planCopiesA pool fe now pr.2 C (acc.2 + 1)).1),
        (planCopiesA pool fe now pr.2 C (acc.2 + 1)).2)
    refine ⟨by omega, fun j hj => ?_⟩
    rcases h2 j hj with h | h
    · rcases sectionIds_aset _ _ _ j h with h' | h'
      · exact .inl h'
      · rcases List.mem_cons.mp h' with h'' | h''
        · subst h''
          exact .inr (le_refl _)
        · exact .inr (by have := hp2 j h''; omega)
    · exact .inr (by omega)

/-- C7: planning is copy-on-write.  In the allocation-instrumented model
(`get_plan_alloc`), starting the allocator at any address `fresh` above
every address of the old section, every slot-list address and every
archive-record address of the returned new section is a fresh one, and in
particular occurs nowhere in the old section: the new section shares no
slot list and no archive record with the old section, so later mutation
of the new section (as registration of a new archive does) cannot alter
the old section.  Input immutability itself is structural in the
embedding: `get_plan_alloc` (like `get_plan`) only reads `sec`. -/
theorem C7_no_aliasing (sec : IdSection) (fe : Chars → Bool) (C : Nat)
    (periods : List (Chars × Nat)) (now : Int) (fresh : Nat)
    (h : ∀ j ∈ sectionIds sec, j < fresh) :
    ∀ j ∈ sectionIds (get_plan_alloc sec fe C periods now fresh).1,
      fresh ≤ j ∧ j ∉ sectionIds sec := by
  intro j hj
  obtain ⟨_, h2⟩ := get_plan_alloc_fold_spec (poolArchivesA periods sec) fe now C
    (sortedPeriods periods) ([], fresh)
  have hle : fresh ≤ j := by
    rcases h2 j (by simpa [get_plan_alloc] using hj) with h' | h'
    · simp [sectionIds] at h'
    · exact h'
  exact ⟨hle, fun hmem => by have := h j hmem; omega⟩

/-- Witness for C7: a one-period section holding one archive with
addresses 0 (list) and 1 (dict), allocator started at 2. -/
theorem C7_witness :
    (∀ j ∈ sectionIds [("hourly".data, (0, [some ⟨1, 999000, "a.txt".data⟩]))], j < 2) ∧
      ∀ j ∈ sectionIds (get_plan_alloc
          [("hourly".data, (0, [some ⟨1, 999000, "a.txt".data⟩]))]
          (fun _ => true) 2 [("hourly".data, 3600), ("daily".data, 86400)]
          1000000 2).1,
        2 ≤ j ∧ j ∉ sectionIds [("hourly".data, (0, [some ⟨1, 999000, "a.txt".data⟩]))] :=
  ⟨by decide, C7_no_aliasing _ _ _ _ _ _ (by decide)⟩

/-! ### String primitive lemmas -/

theorem dropWhile_eq_self_of_head {l : Chars} {c : Char}
    (hc : l.head? = some c) (h : isPySpace c = false) :
    l.dropWhile isPySpace = l := by
  cases l with
  | nil => rfl
  | cons a rest =>
    injection hc with hc
    subst hc
    rw [List.dropWhile_cons, if_neg (by rw [h]; exact Bool.false_ne_true)]

theorem pyStripRight_eq_self {l : Chars} {c : Char}
    (hc : l.getLast? = some c) (h : isPySpace c = false) :
    pyStripRight l = l := by
  rw [pyStripRight, dropWhile_eq_self_of_head (by rw [List.head?_reverse]; exact hc) h,
    List.reverse_reverse]

theorem pyStrip_eq_self {l : Chars} {c d : Char}
    (hc : l.head? = some c) (h : isPySpace c = false)
    (hd : l.getLast? = some d) (h' : isPySpace d = false) :
    pyStrip l = l := by
  rw [pyStrip, pyStripLeft, dropWhile_eq_self_of_head hc h, pyStripRight_eq_self hd h']

theorem pyStrip_tab_line {rest : Chars} {c d : Char}
    (hc : rest.head? = some c) (h : isPySpace c = false)
    (hd : rest.getLast? = some d) (h' : isPySpace d = false) :
    pyStrip ('\t' :: rest) = rest := by
  rw [pyStrip, pyStripLeft, List.dropWhile_cons, if_pos (by decide),
    dropWhile_eq_self_of_head hc h, pyStripRight_eq_self hd h']

theorem splitChar_no_sep {sep : Char} {x : Chars} (h : sep ∉ x) :
    splitChar sep x = [x] := by
  induction x with
  | nil => rfl
  | cons c rest ih =>
    simp only [List.mem_cons] at h
    push_neg at h
    rw [splitChar, if_neg (fun hh => h.1 hh.symm), ih h.2]

theorem splitChar_append_sep {sep : Char} {x rest : Chars} (h : sep ∉ x) :
    splitChar sep (x ++ sep :: rest) = x :: splitChar sep rest := by
  induction x with
  | nil => simp [splitChar]
  | cons c y ih =>
    simp only [List.mem_cons] at h
    push_neg at h
    rw [List.cons_append, splitChar, if_neg (fun hh => h.1 hh.symm), ih h.2]

/-! ### Decimal rendering round-trip lemmas -/

theorem digitsVal_append (a : Chars) (c : Char) :
    digitsVal (a ++ [c]) = 10 * digitsVal a + digitVal c := by
  simp [digitsVal, List.foldl_append]

theorem natCharsAux_spec : ∀ (fuel n : Nat), n < fuel →
    (natCharsAux fuel n).all Char.isDigit = true ∧ natCharsAux fuel n ≠ [] ∧
      digitsVal (natCharsAux fuel n) = n := by
  intro fuel
  induction fuel with
  | zero => intro n hn; omega
  | succ fuel ih =>
    intro n hn
    by_cases h10 : n < 10
    · rw [natCharsAux, if_pos h10]
      refine ⟨?_, by simp, ?_⟩
      · interval_cases n <;> decide
      · interval_cases n <;> decide
    · rw [natCharsAux, if_neg h10]
      have hdiv : n / 10 < fuel := by
        have := Nat.div_lt_self (show 0 < n by omega) (show 1 < 10 by decide)
        omega
      obtain ⟨hall, hne, hval⟩ := ih (n / 10) hdiv
      have hmod : n % 10 < 10 := Nat.mod_lt _ (by decide)
      have hdig : (Char.ofNat ('0'.toNat + n % 10)).isDigit = true := by
        set m := n % 10 with hm
        interval_cases m <;> decide
      have hdigval : digitVal (Char.ofNat ('0'.toNat + n % 10)) = n % 10 := by
        set m := n % 10 with hm
        interval_cases m <;> decide
      refine ⟨?_, by simp, ?_⟩
      · rw [List.all_append, hall]
        simpa using hdig
      · rw [digitsVal_append, hval, hdigval]
        omega

theorem natChars_all_digits (n : Nat) : (natChars n).all Char.isDigit = true :=
  (natCharsAux_spec (n + 1) n (by omega)).1

theorem natChars_ne_nil (n : Nat) : natChars n ≠ [] :=
  (natCharsAux_spec (n + 1) n (by omega)).2.1

theorem digitsVal_natChars (n : Nat) : digitsVal (natChars n) = n :=
  (natCharsAux_spec (n + 1) n (by omega)).2.2

theorem parseDigits_natChars (n : Nat) : parseDigits (natChars n) = some n := by
  rw [parseDigits, if_pos ⟨natChars_ne_nil n, natChars_all_digits n⟩, digitsVal_natChars]

theorem digit_not_special {c : Char} (h : c.isDigit = true) :
    isPySpace c = false ∧ c ≠ '\t' ∧ c ≠ '\n' ∧ c ≠ '-' ∧ c ≠ '+' ∧ c ≠ '>' := by
  refine ⟨?_, ?_, ?_, ?_, ?_, ?_⟩
  · simp only [isPySpace, Bool.or_eq_false_iff, decide_eq_false_iff_not]
    refine ⟨⟨⟨⟨⟨?_, ?_⟩, ?_⟩, ?_⟩, ?_⟩, ?_⟩ <;>
      (intro hc; subst hc; exact absurd h (by decide))
  all_goals intro hc; subst hc; exact absurd h (by decide)

theorem mem_natChars_digit {n : Nat} {c : Char} (h : c ∈ natChars n) :
    c.isDigit = true := by
  have hall := natChars_all_digits n
  rw [List.all_eq_true] at hall
  exact hall c h

theorem pyStrip_eq_self_of_nonspace {l : Chars}
    (h : ∀ c ∈ l, isPySpace c = false) (hne : l ≠ []) : pyStrip l = l := by
  cases l with
  | nil => exact absurd rfl hne
  | cons a rest =>
    have hlast := List.getLast?_eq_getLast (a :: rest) (by simp)
    exact pyStrip_eq_self (c := a) (d := (a :: rest).getLast (by simp)) rfl
      (h a (.head _)) hlast (h _ (List.getLast_mem _))

theorem parseInt_natChars (n : Nat) : parseInt (natChars n) = some (n : Int) := by
  have hstrip : pyStrip (natChars n) = natChars n :=
    pyStrip_eq_self_of_nonspace
      (fun c hc => (digit_not_special (mem_natChars_digit hc)).1) (natChars_ne_nil n)
  simp only [parseInt, hstrip]
  split
  · rename_i rest heq
    have : ('-' : Char).isDigit = true := mem_natChars_digit (heq ▸ List.mem_cons_self _ _)
    exact absurd this (by decide)
  · rename_i rest heq
    have : ('+' : Char).isDigit = true := mem_natChars_digit (heq ▸ List.mem_cons_self _ _)
    exact absurd this (by decide)
  · rw [parseDigits_natChars]
    rfl

theorem parseInt_intChars (i : Int) : parseInt (intChars i) = some i := by
  by_cases hneg : i < 0
  · have hstrip : pyStrip (intChars i) = '-' :: natChars i.natAbs := by
      rw [intChars, if_pos hneg]
      refine pyStrip_eq_self_of_nonspace (fun c hc => ?_) (by simp)
      rcases List.mem_cons.mp hc with h | h
      · subst h; decide
      · exact (digit_not_special (mem_natChars_digit h)).1
    rw [intChars, if_pos hneg] at hstrip ⊢
    simp only [parseInt, hstrip, parseDigits_natChars]
    show some (-(i.natAbs : Int)) = some i
    simp only [Option.some.injEq]
    omega
  · have hstrip : pyStrip (intChars i) = natChars i.toNat := by
      rw [intChars, if_neg hneg]
      exact pyStrip_eq_self_of_nonspace
        (fun c hc => (digit_not_special (mem_natChars_digit hc)).1)
        (natChars_ne_nil _)
    rw [intChars, if_neg hneg] at hstrip ⊢
    rw [show parseInt (natChars i.toNat) = some ((i.toNat : Nat) : Int) from
      parseInt_natChars i.toNat]
    simp only [Option.some.injEq]
    omega

theorem getLast?_append_right {x f : Chars} {d : Char} (h : f.getLast? = some d) :
    (x ++ f).getLast? = some d := by
  rw [List.getLast?_append, h]
  rfl

theorem getLast?_cons_right {c : Char} {f : Chars} {d : Char}
    (h : f.getLast? = some d) : (c :: f).getLast? = some d := by
  rw [show c :: f = [c] ++ f from rfl]
  exact getLast?_append_right h

theorem mem_intChars {i : Int} {c : Char} (h : c ∈ intChars i) :
    c.isDigit = true ∨ c = '-' := by
  rw [intChars] at h
  by_cases hneg : i < 0
  · rw [if_pos hneg] at h
    rcases List.mem_cons.mp h with h | h
    · exact .inr h
    · exact .inl (mem_natChars_digit h)
  · rw [if_neg hneg] at h
    exact .inl (mem_natChars_digit h)

theorem tab_not_mem_intChars (i : Int) : '\t' ∉ intChars i := by
  intro hmem
  rcases mem_intChars hmem with h | h
  · exact absurd h (by decide)
  · exact absurd h (by decide)

theorem tab_not_mem_natChars (n : Nat) : '\t' ∉ natChars n := by
  intro hmem
  exact absurd (mem_natChars_digit hmem) (by decide)

theorem readStep_data (periods : List (Chars × Nat)) (e : PyFloat) (st : RState)
    (p : Chars) (i : Nat) (a : Archive)
    (hp : periodNameOk p = true) (hper : (aget periods p).isSome = true)
    (hi : i + 1 ≤ 2000) (hf : fileNameOk a.file = true) :
    readStep periods e st (dataLine p (i + 1) a) =
      .ok { st with sec := applyEntry st.sec (p, i, a) } := by
  simp only [periodNameOk, Bool.and_eq_true, decide_eq_true_eq] at hp
  obtain ⟨⟨hphead, hpall⟩, hplower⟩ := hp
  simp only [fileNameOk, Bool.and_eq_true] at hf
  obtain ⟨hflast, hfall⟩ := hf
  obtain ⟨c, p', rfl⟩ : ∃ c p', p = c :: p' := by
    cases p with
    | nil => simp at hphead
    | cons c p' => exact ⟨c, p', rfl⟩
  have hchead : isPySpace c = false := by simpa using hphead
  obtain ⟨d, hd⟩ : ∃ d, a.file.getLast? = some d := by
    cases hl : a.file.getLast? with
    | none => rw [hl] at hflast; simp at hflast
    | some d => exact ⟨d, rfl⟩
  have hdns : isPySpace d = false := by
    rw [hd] at hflast
    simpa using hflast
  have hpall' : ∀ x ∈ c :: p', x ≠ '\t' ∧ x ≠ '\n' := by
    intro x hx
    rw [List.all_eq_true] at hpall
    have := hpall x hx
    simp only [Bool.and_eq_true, decide_eq_true_eq] at this
    exact this
  have hfall' : ∀ x ∈ a.file, x ≠ '\t' ∧ x ≠ '\n' := by
    intro x hx
    rw [List.all_eq_true] at hfall
    have := hfall x hx
    simp only [Bool.and_eq_true, decide_eq_true_eq] at this
    exact this
  set body := (c :: p') ++ '\t' :: (natChars (i + 1) ++ '\t' ::
    (intChars a.timestamp ++ '\t' :: a.file)) with hbody
  have hline : dataLine (c :: p') (i + 1) a = '\t' :: body := rfl
  have hlastbody : body.getLast? = some d := by
    rw [hbody]
    exact getLast?_append_right (getLast?_cons_right (getLast?_append_right
      (getLast?_cons_right (getLast?_append_right (getLast?_cons_right hd)))))
  have hstrip : pyStrip ('\t' :: body) = body :=
    pyStrip_tab_line (by rw [hbody]; rfl) hchead hlastbody hdns
  have hsplit : splitChar '\t' body = [c :: p', natChars (i + 1),
      intChars a.timestamp, a.file] := by
    rw [hbody, splitChar_append_sep (fun hx => (hpall' _ hx).1 rfl),
      splitChar_append_sep (tab_not_mem_natChars _),
      splitChar_append_sep (tab_not_mem_intChars _),
      splitChar_no_sep (fun hx => (hfall' _ hx).1 rfl)]
  have hne : body ≠ [] := by rw [hbody]; simp
  rw [hline]
  simp only [readStep, hstrip]
  rw [if_neg hne]
  have h1 : pyStartsWith ('\t' :: body) ['>'] = false := rfl
  have h2 : pyStartsWith ('\t' :: body) ['\t'] = true := rfl
  rw [h1, h2]
  simp only [Bool.false_eq_true, if_false, Bool.not_true, hsplit]
  rw [hplower]
  obtain ⟨pv, hpv⟩ := Option.isSome_iff_exists.mp hper
  rw [hpv]
  simp only [Option.isNone_some, Bool.false_eq_true, if_false]
  rw [parseInt_intChars a.timestamp, parseInt_natChars (i + 1)]
  dsimp only
  have hcast : ((i + 1 : Nat) : Int) = (i : Int) + 1 := by push_cast; ring
  rw [hcast]
  rw [if_neg (show ¬ ((i : Int) + 1 > 2000) by omega)]
  have hlenpad : ((padCopies (agetD st.sec (c :: p') []) ((i : Int) + 1)).length : Int) ≥ (i : Int) + 1 := by
    rw [padCopies_length]
    push_cast
    omega
  have hsetcalc : pySetElem (padCopies (agetD st.sec (c :: p') []) ((i : Int) + 1))
      ((i : Int) + 1 - 1) (some ⟨a.timestamp, a.file⟩) =
      .ok (setSlotEntry (agetD st.sec (c :: p') []) i ⟨a.timestamp, a.file⟩) := by
    have hnn : ¬ ((i : Int) + 1 - 1 < 0) := by omega
    simp only [pySetElem, if_neg hnn]
    rw [if_pos (by constructor <;> omega)]
    rw [setSlotEntry]
    congr 1
    congr 1
    omega
  rw [hsetcalc]
  rfl

theorem readStep_group (periods : List (Chars × Nat)) (e : PyFloat) (st : RState)
    (g : Chars) (hver : versionFalsy st.version = false) (hg : groupNameOk g = true) :
    readStep periods e st g =
      .ok ⟨st.version, flushSection st, [], some g⟩ := by
  simp only [groupNameOk, Bool.and_eq_true] at hg
  obtain ⟨⟨hghead, hglast⟩, _⟩ := hg
  obtain ⟨c, g', rfl⟩ : ∃ c g', g = c :: g' := by
    cases g with
    | nil => simp at hghead
    | cons c g' => exact ⟨c, g', rfl⟩
  have hcsp : isPySpace c = false ∧ c ≠ '>' := by simpa using hghead
  obtain ⟨d, hd⟩ : ∃ d, (c :: g').getLast? = some d := by
    cases hl : (c :: g').getLast? with
    | none => simp at hl
    | some d => exact ⟨d, rfl⟩
  have hdns : isPySpace d = false := by
    rw [hd] at hglast
    simpa using hglast
  have hstrip : pyStrip (c :: g') = c :: g' :=
    pyStrip_eq_self rfl hcsp.1 hd hdns
  have h1 : pyStartsWith (c :: g') ['>'] = false := by
    simp [pyStartsWith, List.isPrefixOf]
    exact fun hh => hcsp.2 hh.symm
  have hct : c ≠ '\t' := by
    intro hc
    rw [hc] at hcsp
    exact absurd hcsp.1 (by decide)
  have h2 : pyStartsWith (c :: g') ['\t'] = false := by
    simp [pyStartsWith, List.isPrefixOf]
    exact fun hh => hct hh.symm
  simp only [readStep, hstrip, h1, h2]
  rw [if_neg (List.cons_ne_nil c g'),
    if_neg (show ¬ (false = true) from Bool.false_ne_true),
    if_pos (show (!false) = true from rfl),
    if_neg (show ¬ (versionFalsy st.version = true) from by
      rw [hver]; exact Bool.false_ne_true)]

theorem readStep_version (periods : List (Chars × Nat)) (e : PyFloat) (st : RState)
    (vs : Chars) (v : PyFloat) (hvs : versionStrOk vs = true)
    (hv : parseFloat vs = some v) (hcompat : versionIncompatible v e = false) :
    readStep periods e st (">version=".data ++ vs) =
      .ok { st with version := some v } := by
  simp only [versionStrOk, Bool.and_eq_true] at hvs
  obtain ⟨hvlast, _⟩ := hvs
  obtain ⟨d, hd⟩ : ∃ d, vs.getLast? = some d := by
    cases hl : vs.getLast? with
    | none => rw [hl] at hvlast; simp at hvlast
    | some d => exact ⟨d, rfl⟩
  have hdns : isPySpace d = false := by
    rw [hd] at hvlast
    simpa using hvlast
  have hstrip : pyStrip (">version=".data ++ vs) = ">version=".data ++ vs :=
    pyStrip_eq_self (c := '>') rfl (by decide) (getLast?_append_right hd) hdns
  have h1 : pyStartsWith (">version=".data ++ vs) ['>'] = true := rfl
  have h2 : pyStartsWith (">version=".data ++ vs) (">version=".data) = true :=
    List.isPrefixOf_iff_prefix.mpr (List.prefix_append _ _)
  have hdrop : (">version=".data ++ vs).drop 9 = vs := by
    rw [show (9 : Nat) = (">version=".data).length from rfl, List.drop_left]
  have hne : ">version=".data ++ vs ≠ [] := by simp
  simp only [readStep, hstrip, h1, h2, hdrop, hv]
  rw [if_neg hne]
  simp [hcompat]

/-! ### Section reconstruction lemmas -/

theorem dropTrailingNones_append_none (l : List (Option Archive)) :
    dropTrailingNones (l ++ [none]) = dropTrailingNones l := by
  simp [dropTrailingNones, List.dropWhile_cons]

theorem dropTrailingNones_append_some (l : List (Option Archive)) (a : Archive) :
    dropTrailingNones (l ++ [some a]) = l ++ [some a] := by
  simp [dropTrailingNones, List.dropWhile_cons]

theorem dropTrailingNones_spec (l : List (Option Archive)) :
    ∃ k, l = dropTrailingNones l ++ List.replicate k none := by
  have hsplit := List.takeWhile_append_dropWhile (fun a => a.isNone) l.reverse
  refine ⟨(l.reverse.takeWhile (fun a : Option Archive => a.isNone)).length, ?_⟩
  have hrep : l.reverse.takeWhile (fun a : Option Archive => a.isNone) =
      List.replicate (l.reverse.takeWhile (fun a : Option Archive => a.isNone)).length none := by
    refine List.eq_replicate_of_mem (fun b hb => ?_)
    have := List.mem_takeWhile_imp hb
    cases b with
    | none => rfl
    | some x => simp at this
  calc l = l.reverse.reverse := by rw [List.reverse_reverse]
    _ = ((l.reverse.takeWhile (fun a : Option Archive => a.isNone)) ++
          (l.reverse.dropWhile (fun a : Option Archive => a.isNone))).reverse := by
          rw [hsplit]
    _ = dropTrailingNones l ++ List.replicate
          (l.reverse.takeWhile (fun a : Option Archive => a.isNone)).length none := by
          rw [List.reverse_append, dropTrailingNones]
          congr 1
          rw [hrep]
          simp [List.reverse_replicate]

theorem dropTrailingNones_length_le (l : List (Option Archive)) :
    (dropTrailingNones l).length ≤ l.length := by
  obtain ⟨k, hk⟩ := dropTrailingNones_spec l
  conv_rhs => rw [hk]
  simp

theorem entries0_append_none (l : List (Option Archive)) :
    entries0 (l ++ [none]) = entries0 l := by
  rw [entries0, entries0, List.enum_append, List.filterMap_append]
  simp

theorem entries0_append_some (l : List (Option Archive)) (a : Archive) :
    entries0 (l ++ [some a]) = entries0 l ++ [(l.length, a)] := by
  rw [entries0, entries0, List.enum_append, List.filterMap_append]
  simp [List.enumFrom]

theorem entries0_replicate_none (k : Nat) :
    entries0 (List.replicate k none) = [] := by
  refine List.filterMap_eq_nil_iff.mpr (fun ia hia => ?_)
  have := List.mem_enum_iff_getElem?.mp hia
  have hmem : ia.2 ∈ List.replicate k (none : Option Archive) :=
    List.getElem?_mem this
  rw [List.eq_of_mem_replicate hmem]
  rfl

theorem setSlotEntry_extend (m : List (Option Archive)) (i : Nat) (a : Archive)
    (h : m.length ≤ i) :
    setSlotEntry m i a = m ++ List.replicate (i - m.length) none ++ [some a] := by
  rw [setSlotEntry, padCopies]
  have hk : (((i : Int) + 1) - (m.length : Int)).toNat = (i - m.length) + 1 := by omega
  rw [hk, List.replicate_succ', ← List.append_assoc, List.set_append,
    if_neg (by simp; omega)]
  have hidx : i - (m ++ List.replicate (i - m.length) (none : Option Archive)).length = 0 := by
    simp [List.length_append, List.length_replicate]
    omega
  rw [hidx]
  rfl

theorem rebuild_one (l : List (Option Archive)) :
    (entries0 l).foldl (fun m ia => setSlotEntry m ia.1 ia.2) [] =
      dropTrailingNones l := by
  induction l using List.reverseRecOn with
  | nil => rfl
  | append_singleton l x ih =>
    cases x with
    | none => rw [entries0_append_none, dropTrailingNones_append_none, ih]
    | some a =>
      rw [entries0_append_some, dropTrailingNones_append_some, List.foldl_append, ih]
      obtain ⟨k, hk⟩ := dropTrailingNones_spec l
      have hlen : (dropTrailingNones l).length ≤ l.length := dropTrailingNones_length_le l
      rw [List.foldl_cons, List.foldl_nil]
      rw [setSlotEntry_extend _ _ _ hlen]
      have hkval : k = l.length - (dropTrailingNones l).length := by
        have := congrArg List.length hk
        simp [List.length_append, List.length_replicate] at this
        omega
      conv_rhs => rw [hk]
      rw [hkval]

theorem agetD_foldl_applyEntry (es : List (Chars × Nat × Archive)) (p : Chars) :
    ∀ s : TSection, agetD (es.foldl applyEntry s) p [] =
      (es.filterMap (fun en => if en.1 = p then some en.2 else none)).foldl
        (fun m ia => setSlotEntry m ia.1 ia.2) (agetD s p []) := by
  induction es with
  | nil => intro s; rfl
  | cons en rest ih =>
    intro s
    obtain ⟨q, i, a⟩ := en
    rw [List.foldl_cons, ih, List.filterMap_cons]
    by_cases hp : q = p
    · subst hp
      rw [if_pos rfl, List.foldl_cons]
      congr 1
      rw [applyEntry, agetD, aget_aset, if_pos rfl, Option.getD_some]
    · have hp' : (q, i, a).1 = p ↔ False := by simpa using hp
      rw [if_neg (by simpa using hp)]
      congr 1
      rw [applyEntry, agetD, aget_aset]
      rw [if_neg (by simpa using hp)]
      rfl

theorem filterMap_pick_flatMap (sec : TSection) (p : Chars) :
    ∀ (l : List Chars), l.Nodup →
      ((l.flatMap (fun q => (agetD sec q []).enum.filterMap
          (fun ia => ia.2.map (fun a => (q, ia.1, a))))).filterMap
        (fun en => if en.1 = p then some en.2 else none)) =
        if p ∈ l then entries0 (agetD sec p []) else [] := by
  intro l
  induction l with
  | nil => intro _; simp
  | cons q rest ih =>
    intro hnd
    rw [List.nodup_cons] at hnd
    rw [List.flatMap_cons, List.filterMap_append, ih hnd.2,
      List.filterMap_filterMap]
    by_cases hq : q = p
    · subst hq
      rw [if_neg hnd.1, if_pos (List.mem_cons_self _ _), List.append_nil]
      rw [entries0]
      congr 1
      funext ia
      cases ia.2 with
      | none => rfl
      | some a => simp
    · have hinner : ((agetD sec q []).enum.filterMap
          (fun ia => (ia.2.map (fun a => (q, ia.1, a))).bind
            (fun en => if en.1 = p then some en.2 else none))) = [] := by
        refine List.filterMap_eq_nil_iff.mpr (fun ia _ => ?_)
        cases ia.2 with
        | none => rfl
        | some a => simp [hq]
      rw [hinner, List.nil_append]
      by_cases hpr : p ∈ rest
      · rw [if_pos hpr, if_pos (List.mem_cons_of_mem _ hpr)]
      · rw [if_neg hpr, if_neg (fun hmem => by
          rcases List.mem_cons.mp hmem with hh | hh
          · exact hq hh.symm
          · exact hpr hh)]

theorem sec_keys_sub {periods : List (Chars × Nat)} {sec : TSection}
    (hkeys : sectionIOOk periods sec = true) {p : Chars} {l : List (Option Archive)}
    (h : aget sec p = some l) : p ∈ periods.map (·.1) := by
  rw [sectionIOOk, List.all_eq_true] at hkeys
  have := hkeys _ (aget_mem h)
  simp only [Bool.and_eq_true] at this
  obtain ⟨v, hv⟩ := Option.isSome_iff_exists.mp this.1
  exact List.mem_map.mpr ⟨(p, v), aget_mem hv, rfl⟩

theorem mem_orderedPeriods_iff (periods : List (Chars × Nat)) (p : Chars) :
    p ∈ getOrderedPeriods periods ↔ p ∈ periods.map (·.1) :=
  ((List.perm_insertionSort (fun a b => a.2 ≤ b.2) periods).map (·.1)).mem_iff

theorem agetD_rebuildSection (periods : List (Chars × Nat)) (sec : TSection)
    (p : Chars) (hnd : (getOrderedPeriods periods).Nodup)
    (hkeys : sectionIOOk periods sec = true)
    (hnp : sectionNoPadding sec = true) :
    agetD (rebuildSection periods sec) p [] = agetD sec p [] := by
  rw [rebuildSection, agetD_foldl_applyEntry,
    show agetD ([] : TSection) p [] = [] from rfl,
    show sectionEntries periods sec = (getOrderedPeriods periods).flatMap
      (fun q => (agetD sec q []).enum.filterMap
        (fun ia => ia.2.map (fun a => (q, ia.1, a)))) from rfl,
    filterMap_pick_flatMap sec p _ hnd]
  by_cases hp : p ∈ getOrderedPeriods periods
  · rw [if_pos hp, rebuild_one]
    cases hg : aget sec p with
    | none => rw [agetD, hg]; rfl
    | some l =>
      rw [agetD, hg, Option.getD_some]
      rw [sectionNoPadding, List.all_eq_true] at hnp
      have := hnp _ (aget_mem hg)
      simpa using this
  · rw [if_neg hp]
    cases hg : aget sec p with
    | none => rw [agetD, hg]; rfl
    | some l =>
      exact absurd ((mem_orderedPeriods_iff periods p).mpr (sec_keys_sub hkeys hg)) hp

theorem sectionEntries_entryOk (periods : List (Chars × Nat)) (sec : TSection)
    (hper : periodsOk periods = true) (hsec : sectionIOOk periods sec = true) :
    ∀ en ∈ sectionEntries periods sec, entryOk periods en = true := by
  intro en hen
  simp only [sectionEntries, List.mem_flatMap, List.mem_filterMap] at hen
  obtain ⟨q, hq, ia, hia, hmap⟩ := hen
  cases hia2 : ia.2 with
  | none => rw [hia2] at hmap; simp at hmap
  | some a =>
    rw [hia2] at hmap
    rw [show Option.map (fun a => (q, ia.1, a)) (some a) =
      some (q, ia.1, a) from rfl] at hmap
    injection hmap with hmap
    subst hmap
    have hqmem : q ∈ periods.map (·.1) := (mem_orderedPeriods_iff periods q).mp hq
    have hpn : periodNameOk q = true := by
      rw [periodsOk, Bool.and_eq_true, List.all_eq_true] at hper
      obtain ⟨pr, hpr, hpr1⟩ := List.mem_map.mp hqmem
      have := hper.2 pr hpr
      rwa [hpr1] at this
    have hsome : (aget periods q).isSome = true := aget_isSome_of_mem_keys hqmem
    have hlist : (agetD sec q []).length ≤ 2000 ∧
        ∀ x ∈ agetD sec q [], (x.map (fun ar => fileNameOk ar.file)).getD true = true := by
      cases hg : aget sec q with
      | none => rw [agetD, hg]; exact ⟨by simp, by simp⟩
      | some l =>
        rw [agetD, hg, Option.getD_some]
        rw [sectionIOOk, List.all_eq_true] at hsec
        have h2 := hsec _ (aget_mem hg)
        simp only [Bool.and_eq_true] at h2
        obtain ⟨-, hll⟩ := h2
        rw [slotListIOOk, Bool.and_eq_true] at hll
        refine ⟨of_decide_eq_true hll.1, fun x hx => ?_⟩
        exact (List.all_eq_true.mp hll.2) x hx
    have hlt : ia.1 < (agetD sec q []).length := by
      have h3 := List.mem_enum_iff_getElem?.mp hia
      by_contra hge
      rw [List.getElem?_eq_none (by omega)] at h3
      exact absurd h3 (by simp)
    have hmem2 : ia.2 ∈ agetD sec q [] :=
      List.getElem?_mem (List.mem_enum_iff_getElem?.mp hia)
    have hfo : fileNameOk a.file = true := by
      have := hlist.2 _ hmem2
      rw [hia2] at this
      simpa using this
    rw [entryOk]
    simp only [Bool.and_eq_true, decide_eq_true_eq]
    exact ⟨⟨⟨hpn, hsome⟩, by omega⟩, hfo⟩

theorem foldlM_dataLines (periods : List (Chars × Nat)) (e : PyFloat)
    (es : List (Chars × Nat × Archive)) :
    ∀ st : RState, (∀ en ∈ es, entryOk periods en = true) →
      ((es.map (fun en => dataLine en.1 (en.2.1 + 1) en.2.2)).foldlM
        (readStep periods e) st : Except PyErr RState) =
        .ok { st with sec := es.foldl applyEntry st.sec } := by
  induction es with
  | nil => intro st _; rfl
  | cons en rest ih =>
    intro st hok
    have h := hok en (.head _)
    rw [entryOk] at h
    simp only [Bool.and_eq_true, decide_eq_true_eq] at h
    obtain ⟨⟨⟨hpn, hsome⟩, hle⟩, hfo⟩ := h
    obtain ⟨q, i, a⟩ := en
    rw [List.map_cons, List.foldlM_cons,
      readStep_data periods e st q i a hpn hsome hle hfo]
    show (rest.map (fun en => dataLine en.1 (en.2.1 + 1) en.2.2)).foldlM
      (readStep periods e) { st with sec := applyEntry st.sec (q, i, a) } =
      .ok { st with sec := ((q, i, a) :: rest).foldl applyEntry st.sec }
    rw [ih _ (fun x hx => hok x (.tail _ hx)), List.foldl_cons]

theorem foldlM_groupBlock (periods : List (Chars × Nat)) (e : PyFloat)
    (g : Chars) (sec : TSection) (st : RState)
    (hver : versionFalsy st.version = false) (hg : groupNameOk g = true)
    (hper : periodsOk periods = true) (hsec : sectionIOOk periods sec = true) :
    ((g :: sectionLines periods sec).foldlM (readStep periods e) st :
      Except PyErr RState) =
      .ok ⟨st.version, flushSection st, rebuildSection periods sec, some g⟩ := by
  rw [List.foldlM_cons, readStep_group periods e st g hver hg]
  show (sectionLines periods sec).foldlM (readStep periods e)
      ⟨st.version, flushSection st, [], some g⟩ =
    .ok ⟨st.version, flushSection st, rebuildSection periods sec, some g⟩
  rw [sectionLines, foldlM_dataLines periods e _ _
    (sectionEntries_entryOk periods sec hper hsec)]
  rfl

theorem foldlM_groups (periods : List (Chars × Nat)) (e : PyFloat) (tr : Tracker) :
    ∀ st : RState, versionFalsy st.version = false →
      periodsOk periods = true →
      (∀ gp ∈ tr, groupNameOk gp.1 = true) →
      (∀ gp ∈ tr, sectionIOOk periods gp.2 = true) →
      ((tr.flatMap (fun gp => gp.1 :: sectionLines periods gp.2)).foldlM
        (readStep periods e) st : Except PyErr RState) =
        .ok (endState periods st tr) := by
  induction tr with
  | nil => intro st _ _ _ _; rfl
  | cons gp rest ih =>
    intro st hver hper hg hsec
    obtain ⟨g, sec⟩ := gp
    rw [List.flatMap_cons, List.foldlM_append,
      foldlM_groupBlock periods e g sec st hver (hg _ (.head _)) hper
        (hsec _ (.head _))]
    show (rest.flatMap (fun gp => gp.1 :: sectionLines periods gp.2)).foldlM
        (readStep periods e)
        ⟨st.version, flushSection st, rebuildSection periods sec, some g⟩ =
      .ok (endState periods st ((g, sec) :: rest))
    rw [ih ⟨st.version, flushSection st, rebuildSection periods sec, some g⟩
      hver hper (fun x hx => hg x (.tail _ hx))
      (fun x hx => hsec x (.tail _ hx))]
    rfl

theorem foldl_applyEntry_ne_nil (es : List (Chars × Nat × Archive)) :
    ∀ s : TSection, s ≠ [] → es.foldl applyEntry s ≠ [] := by
  induction es with
  | nil => intro s hs; exact hs
  | cons en rest ih =>
    intro s _
    rw [List.foldl_cons]
    exact ih _ (aset_ne_nil _ _ _)

theorem rebuildSection_eq_nil_iff (periods : List (Chars × Nat)) (sec : TSection) :
    rebuildSection periods sec = [] ↔ sectionEntries periods sec = [] := by
  rw [rebuildSection]
  cases h : sectionEntries periods sec with
  | nil => simp
  | cons en rest =>
    constructor
    · intro hh
      rw [List.foldl_cons] at hh
      exact absurd hh (foldl_applyEntry_ne_nil rest _ (aset_ne_nil _ _ _))
    · intro hh
      cases hh
  
theorem groupNameOk_ne_nil {g : Chars} (hg : groupNameOk g = true) : g ≠ [] := by
  intro hgn
  subst hgn
  simp [groupNameOk] at hg

theorem flushSection_endState (periods : List (Chars × Nat)) (tr : Tracker) :
    ∀ st : RState, (∀ gp ∈ tr, gp.1 ≠ []) →
      flushSection (endState periods st tr) =
        tr.foldl (fun acc gp => if sectionAlive periods gp.2 = true
          then aset acc gp.1 (rebuildSection periods gp.2) else acc)
          (flushSection st) := by
  induction tr with
  | nil => intro st _; rfl
  | cons gp rest ih =>
    intro st hg
    obtain ⟨g, sec⟩ := gp
    rw [show endState periods st ((g, sec) :: rest) = endState periods
      ⟨st.version, flushSection st, rebuildSection periods sec, some g⟩ rest from rfl]
    rw [ih _ (fun x hx => hg x (.tail _ hx)), List.foldl_cons]
    congr 1
    show (if rebuildSection periods sec ≠ [] ∧ g ≠ [] then
        aset (flushSection st) g (rebuildSection periods sec) else flushSection st) =
      if sectionAlive periods sec = true then
        aset (flushSection st) g (rebuildSection periods sec) else flushSection st
    by_cases halive : sectionAlive periods sec = true
    · rw [if_pos halive, if_pos]
      refine ⟨?_, hg _ (.head _)⟩
      rw [Ne, rebuildSection_eq_nil_iff]
      intro hnil
      rw [sectionAlive, hnil] at halive
      simp at halive
    · rw [if_neg halive, if_neg]
      intro hcond
      apply hcond.1
      rw [rebuildSection_eq_nil_iff]
      have h1 : (!(sectionEntries periods sec).isEmpty) = false := by
        rw [sectionAlive] at halive
        exact eq_false_of_ne_true halive
      have h2 : (sectionEntries periods sec).isEmpty = true := by
        cases hEE : (sectionEntries periods sec).isEmpty
        · rw [hEE] at h1; simp at h1
        · rfl
      exact List.isEmpty_iff.mp h2

theorem foldl_alive_aset (periods : List (Chars × Nat)) (tr : Tracker) :
    ∀ acc : Tracker, (tr.map (·.1)).Nodup →
      (∀ gp ∈ tr, gp.1 ∉ acc.map (·.1)) →
      tr.foldl (fun acc gp => if sectionAlive periods gp.2 = true
        then aset acc gp.1 (rebuildSection periods gp.2) else acc) acc =
      acc ++ (tr.filter (fun gp => sectionAlive periods gp.2)).map
        (fun gp => (gp.1, rebuildSection periods gp.2)) := by
  induction tr with
  | nil => intro acc _ _; simp
  | cons gp rest ih =>
    intro acc hnd hdis
    obtain ⟨g, sec⟩ := gp
    rw [List.map_cons, List.nodup_cons] at hnd
    rw [List.foldl_cons]
    by_cases halive : sectionAlive periods sec = true
    · rw [if_pos halive, aset_of_not_mem _ (hdis _ (.head _))]
      rw [ih (acc ++ [(g, rebuildSection periods sec)]) hnd.2 ?_]
      · simp only [List.filter_cons, halive, if_true, List.map_cons,
          List.append_assoc, List.singleton_append]
      · intro x hx
        rw [List.map_append, List.mem_append]
        push_neg
        refine ⟨hdis x (.tail _ hx), ?_⟩
        simp only [List.map_cons, List.map_nil, List.mem_singleton]
        intro hxg
        exact hnd.1 (List.mem_map.mpr ⟨x, hx, hxg⟩)
    · rw [if_neg halive, ih acc hnd.2 (fun x hx => hdis x (.tail _ hx))]
      simp only [List.filter_cons, halive, Bool.false_eq_true, if_false]

theorem readTracker_writeTracker (periods : List (Chars × Nat)) (e : PyFloat)
    (vs : Chars) (v : PyFloat) (tr : Tracker)
    (hper : periodsOk periods = true) (htr : trackerIOOk periods tr = true)
    (hv : parseFloat vs = some v) (hnz : v.num ≠ 0)
    (hcompat : versionIncompatible v e = false) (hvs : versionStrOk vs = true) :
    readTracker periods e (writeTracker periods vs tr) =
      .ok ((tr.filter (fun gp => sectionAlive periods gp.2)).map
        (fun gp => (gp.1, rebuildSection periods gp.2))) := by
  rw [trackerIOOk, Bool.and_eq_true, List.all_eq_true] at htr
  obtain ⟨hnd, hall⟩ := htr
  have hnd' : (tr.map (·.1)).Nodup := of_decide_eq_true hnd
  have hgok : ∀ gp ∈ tr, groupNameOk gp.1 = true := fun gp hgp =>
    (Bool.and_eq_true _ _ |>.mp (hall gp hgp)).1
  have hsecok : ∀ gp ∈ tr, sectionIOOk periods gp.2 = true := fun gp hgp =>
    (Bool.and_eq_true _ _ |>.mp (hall gp hgp)).2
  have hver : versionFalsy (some v) = false := by
    simp [versionFalsy, hnz]
  rw [readTracker, writeTracker, List.foldlM_cons,
    readStep_version periods e ⟨none, [], [], none⟩ vs v hvs hv hcompat]
  show (do
    let st ← (tr.flatMap (fun gp => gp.1 :: sectionLines periods gp.2)).foldlM
      (readStep periods e) ⟨some v, [], [], none⟩
    pure (flushSection st) : Except PyErr Tracker) = _
  rw [foldlM_groups periods e tr ⟨some v, [], [], none⟩ hver hper hgok hsecok]
  show Except.ok (flushSection (endState periods ⟨some v, [], [], none⟩ tr)) = _
  rw [flushSection_endState periods tr _ (fun gp hgp => groupNameOk_ne_nil (hgok gp hgp))]
  rw [show flushSection ⟨some v, [], [], none⟩ = [] from rfl]
  rw [foldl_alive_aset periods tr [] hnd' (by simp)]
  rfl

theorem aget_map_val (F : TSection → TSection) (tr : Tracker) (g : Chars) :
    aget (tr.map (fun gp => (gp.1, F gp.2))) g = (aget tr g).map F := by
  induction tr with
  | nil => rfl
  | cons gp rest ih =>
    obtain ⟨g', sec⟩ := gp
    by_cases h : g' = g
    · subst h
      simp [aget, List.map_cons]
    · simp [aget, List.map_cons, h, ih]

theorem getOrderedPeriods_nodup {periods : List (Chars × Nat)}
    (h : (periods.map (·.1)).Nodup) : (getOrderedPeriods periods).Nodup := by
  rw [getOrderedPeriods, sortedPeriods]
  exact ((List.perm_insertionSort (fun a b => a.2 ≤ b.2) periods).map (·.1)).nodup_iff.mpr h

theorem mem_keys_unique {tr : Tracker} (hnd : (tr.map (·.1)).Nodup)
    {k : Chars} {a b : TSection} (ha : (k, a) ∈ tr) (hb : (k, b) ∈ tr) : a = b := by
  induction tr with
  | nil => simp at ha
  | cons gp rest ih =>
    rw [List.map_cons, List.nodup_cons] at hnd
    rcases List.mem_cons.mp ha with h1 | h1 <;> rcases List.mem_cons.mp hb with h2 | h2
    · cases h1.trans h2.symm
      rfl
    · exact absurd (List.mem_map.mpr ⟨(k, b), h2, rfl⟩)
        (by rw [← h1] at hnd; exact hnd.1)
    · exact absurd (List.mem_map.mpr ⟨(k, a), h1, rfl⟩)
        (by rw [← h2] at hnd; exact hnd.1)
    · exact ih hnd.2 h1 h2

/-- C2: round trip of the tracker store.  For a well-formed tracker whose
sections use only known periods, whose copies lists carry no trailing
empty padding, and in which every group has at least one populated slot,
`load(save(T))` succeeds and equals `T` over populated slots: the same
groups (in order), and for each group and period the same
(1-based slot position, timestamp, filename) entries — positions being
reconstructed from each line's explicit copy number. -/
theorem C2_store_round_trip (periods : List (Chars × Nat)) (e : PyFloat)
    (vs : Chars) (v : PyFloat) (tr : Tracker)
    (hper : periodsOk periods = true) (htr : trackerIOOk periods tr = true)
    (hnp : ∀ gp ∈ tr, sectionNoPadding gp.2 = true)
    (halive : ∀ gp ∈ tr, sectionAlive periods gp.2 = true)
    (hv : parseFloat vs = some v) (hnz : v.num ≠ 0)
    (hcompat : versionIncompatible v e = false) (hvs : versionStrOk vs = true) :
    ∃ tr', readTracker periods e (writeTracker periods vs tr) = .ok tr' ∧
      tr'.map (·.1) = tr.map (·.1) ∧
      ∀ g p, groupPopulated tr' g p = groupPopulated tr g p := by
  have hmaster := readTracker_writeTracker periods e vs v tr hper htr hv hnz hcompat hvs
  rw [List.filter_eq_self.mpr halive] at hmaster
  refine ⟨_, hmaster, ?_, ?_⟩
  · rw [List.map_map]
    rfl
  · intro g p
    have hL : agetD (List.map (fun gp => (gp.1, rebuildSection periods gp.2)) tr) g []
        = ((aget tr g).map (rebuildSection periods)).getD [] := by
      rw [agetD, aget_map_val (rebuildSection periods) tr g]
    have hR : agetD tr g [] = (aget tr g).getD [] := rfl
    rw [groupPopulated, groupPopulated, hL, hR]
    cases hg : aget tr g with
    | none => rfl
    | some sec =>
      show populatedSlots (agetD (rebuildSection periods sec) p []) =
        populatedSlots (agetD sec p [])
      congr 1
      have hmem := aget_mem hg
      exact agetD_rebuildSection periods sec p
        (getOrderedPeriods_nodup (of_decide_eq_true
          ((Bool.and_eq_true _ _).mp hper).1))
        ((Bool.and_eq_true _ _ |>.mp ((List.all_eq_true.mp
          ((Bool.and_eq_true _ _).mp htr).2) _ hmem)).2)
        (hnp _ hmem)

/-- Witness for C2: a one-group tracker with populated hourly and daily
slots (the daily list has a leading empty slot, exercising copy-number
reconstruction), saved and re-loaded at version 2.0. -/
theorem C2_witness :
    (periodsOk [("hourly".data, 3600), ("daily".data, 86400)] = true ∧
      trackerIOOk [("hourly".data, 3600), ("daily".data, 86400)]
        [("data.txt".data,
          [("hourly".data, [some ⟨100, "f1.txt".data⟩]),
           ("daily".data, [none, some ⟨50, "f2.txt".data⟩])])] = true ∧
      (∀ gp ∈ [(("data.txt".data : Chars),
          [(("hourly".data : Chars), [some (⟨100, "f1.txt".data⟩ : Archive)]),
           ("daily".data, [none, some ⟨50, "f2.txt".data⟩])])],
        sectionNoPadding gp.2 = true) ∧
      (∀ gp ∈ [(("data.txt".data : Chars),
          [(("hourly".data : Chars), [some (⟨100, "f1.txt".data⟩ : Archive)]),
           ("daily".data, [none, some ⟨50, "f2.txt".data⟩])])],
        sectionAlive [("hourly".data, 3600), ("daily".data, 86400)] gp.2 = true) ∧
      parseFloat "2.0".data = some ⟨20, 1⟩ ∧ (20 : Int) ≠ 0 ∧
      versionIncompatible ⟨20, 1⟩ ⟨2, 0⟩ = false ∧ versionStrOk "2.0".data = true) ∧
    ∃ tr', readTracker [("hourly".data, 3600), ("daily".data, 86400)] ⟨2, 0⟩
        (writeTracker [("hourly".data, 3600), ("daily".data, 86400)] "2.0".data
          [("data.txt".data,
            [("hourly".data, [some ⟨100, "f1.txt".data⟩]),
             ("daily".data, [none, some ⟨50, "f2.txt".data⟩])])]) = .ok tr' ∧
      tr'.map (·.1) = [("data.txt".data,
          [(("hourly".data : Chars), [some (⟨100, "f1.txt".data⟩ : Archive)]),
           ("daily".data, [none, some ⟨50, "f2.txt".data⟩])])].map (·.1) ∧
      ∀ g p, groupPopulated tr' g p = groupPopulated
        [("data.txt".data,
          [("hourly".data, [some ⟨100, "f1.txt".data⟩]),
           ("daily".data, [none, some ⟨50, "f2.txt".data⟩])])] g p :=
  ⟨⟨by decide, by decide, by decide, by decide, by decide, by decide, by decide,
    by decide⟩,
    C2_store_round_trip [("hourly".data, 3600), ("daily".data, 86400)] ⟨2, 0⟩
      "2.0".data ⟨20, 1⟩
      [("data.txt".data,
        [("hourly".data, [some ⟨100, "f1.txt".data⟩]),
         ("daily".data, [none, some ⟨50, "f2.txt".data⟩])])]
      (by decide) (by decide) (by decide) (by decide)
      (by decide) (by decide) (by decide) (by decide)⟩

/-- C8: a group whose section has no populated slot is written as a bare
path line (its block contributes no data lines), and the reader then
omits the group entirely: a section is stored only when at least one data
line populated it, so `load(save(T))` silently loses every all-empty
group even though `save` emitted its path line. -/
theorem C8_empty_group_lost (periods : List (Chars × Nat)) (e : PyFloat)
    (vs : Chars) (v : PyFloat) (tr : Tracker) (g0 : Chars) (sec0 : TSection)
    (hper : periodsOk periods = true) (htr : trackerIOOk periods tr = true)
    (hv : parseFloat vs = some v) (hnz : v.num ≠ 0)
    (hcompat : versionIncompatible v e = false) (hvs : versionStrOk vs = true)
    (hg : aget tr g0 = some sec0)
    (hdead : sectionAlive periods sec0 = false) :
    sectionLines periods sec0 = [] ∧
      g0 ∈ writeTracker periods vs tr ∧
      ∃ tr', readTracker periods e (writeTracker periods vs tr) = .ok tr' ∧
        aget tr' g0 = none := by
  have hentries : sectionEntries periods sec0 = [] := by
    rw [sectionAlive] at hdead
    have : (sectionEntries periods sec0).isEmpty = true := by
      cases hEE : (sectionEntries periods sec0).isEmpty
      · rw [hEE] at hdead; simp at hdead
      · rfl
    exact List.isEmpty_iff.mp this
  have hlines : sectionLines periods sec0 = [] := by
    rw [sectionLines, hentries]
    rfl
  refine ⟨hlines, ?_, ?_⟩
  · rw [writeTracker]
    refine List.mem_cons_of_mem _ (List.mem_flatMap.mpr ⟨(g0, sec0), aget_mem hg, .head _⟩)
  · refine ⟨_, readTracker_writeTracker periods e vs v tr hper htr hv hnz hcompat hvs, ?_⟩
    have hnd : (tr.map (·.1)).Nodup :=
      of_decide_eq_true ((Bool.and_eq_true _ _).mp htr).1
    cases hres : aget ((tr.filter (fun gp => sectionAlive periods gp.2)).map
        (fun gp => (gp.1, rebuildSection periods gp.2))) g0 with
    | none => rfl
    | some x =>
      exfalso
      have hmem := aget_mem hres
      obtain ⟨gp, hgp, hgpx⟩ := List.mem_map.mp hmem
      have hgpf := List.mem_filter.mp hgp
      have hkey : gp.1 = g0 := congrArg Prod.fst hgpx
      have : gp.2 = sec0 := by
        refine mem_keys_unique hnd ?_ (aget_mem hg)
        rw [← hkey]
        exact hgpf.1
      rw [this] at hgpf
      rw [hgpf.2] at hdead
      cases hdead

/-- Witness for C8: a tracker with one populated group and one group
whose only slot list is empty; the latter survives `save` only as a path
line and is gone after `load`. -/
theorem C8_witness :
    (aget [(("live.txt".data : Chars),
        [(("hourly".data : Chars), [some (⟨100, "f1.txt".data⟩ : Archive)])]),
        ("dead.txt".data, [("hourly".data, [])])] "dead.txt".data =
        some [(("hourly".data : Chars), ([] : List (Option Archive)))] ∧
      sectionAlive [("hourly".data, 3600)] [(("hourly".data : Chars),
        ([] : List (Option Archive)))] = false) ∧
    (sectionLines [("hourly".data, 3600)]
        [(("hourly".data : Chars), ([] : List (Option Archive)))] = [] ∧
      "dead.txt".data ∈ writeTracker [("hourly".data, 3600)] "2.0".data
        [("live.txt".data, [("hourly".data, [some ⟨100, "f1.txt".data⟩])]),
         ("dead.txt".data, [("hourly".data, [])])] ∧
      ∃ tr', readTracker [("hourly".data, 3600)] ⟨2, 0⟩
          (writeTracker [("hourly".data, 3600)] "2.0".data
            [("live.txt".data, [("hourly".data, [some ⟨100, "f1.txt".data⟩])]),
             ("dead.txt".data, [("hourly".data, [])])]) = .ok tr' ∧
        aget tr' "dead.txt".data = none) :=
  ⟨⟨by decide, by decide⟩,
    C8_empty_group_lost [("hourly".data, 3600)] ⟨2, 0⟩ "2.0".data ⟨20, 1⟩
      [("live.txt".data, [("hourly".data, [some ⟨100, "f1.txt".data⟩])]),
       ("dead.txt".data, [("hourly".data, [])])]
      "dead.txt".data [("hourly".data, [])]
      (by decide) (by decide) (by decide) (by decide) (by decide) (by decide)
      (by decide) (by decide)⟩

/-- The exact decimal version check agrees with the rational-number
reading of the source's `version > expected or expected - version >= 1.0`. -/
theorem versionIncompatible_iff (v e : PyFloat) :
    versionIncompatible v e = true ↔
      (v.toRat > e.toRat ∨ e.toRat - v.toRat ≥ 1) := by
  rw [versionIncompatible, Bool.or_eq_true, decide_eq_true_eq, decide_eq_true_eq]
  have h10e : (0 : ℚ) < (10 : ℚ) ^ e.exp := by positivity
  have h10v : (0 : ℚ) < (10 : ℚ) ^ v.exp := by positivity
  apply or_congr
  · rw [gt_iff_lt, gt_iff_lt, PyFloat.toRat, PyFloat.toRat,
      div_lt_div_iff₀ h10e h10v]
    constructor
    · intro h
      exact_mod_cast h
    · intro h
      exact_mod_cast h
  · rw [PyFloat.toRat, PyFloat.toRat, ge_iff_le, ge_iff_le,
      div_sub_div _ _ (ne_of_gt h10e) (ne_of_gt h10v), le_div_iff₀ (by positivity)]
    rw [one_mul]
    constructor
    · intro h
      have h2 : ((10 : Int) ^ (e.exp + v.exp) : ℚ) ≤
          ((e.num * 10 ^ v.exp - v.num * 10 ^ e.exp : Int) : ℚ) := by
        exact_mod_cast h
      push_cast [pow_add] at h2
      linarith
    · intro h
      have h2 : ((10 : Int) ^ (e.exp + v.exp) : ℚ) ≤
          ((e.num * 10 ^ v.exp - v.num * 10 ^ e.exp : Int) : ℚ) := by
        push_cast [pow_add]
        linarith
      exact_mod_cast h2

theorem pySetElem_error_eq {α : Type} {l : List α} {i : Int} {a : α} {err : PyErr}
    (h : pySetElem l i a = .error err) : err = .indexError := by
  simp only [pySetElem] at h
  split_ifs at h <;> simp_all

theorem readStep_not_versionError_of_not_header (periods : List (Chars × Nat))
    (e : PyFloat) (st : RState) (lineRaw : Chars)
    (hblank : pyStrip lineRaw ≠ [])
    (hheader : pyStartsWith lineRaw ['>'] = false) :
    readStep periods e st lineRaw ≠ .error .versionError := by
  simp only [readStep, if_neg hblank, hheader]
  rw [if_neg (show ¬ (false = true) from Bool.false_ne_true)]
  by_cases hsect : (!pyStartsWith lineRaw ['\t']) = true
  · rw [if_pos hsect]
    by_cases hfv : versionFalsy st.version = true
    · rw [if_pos hfv]
      simp
    · rw [if_neg hfv]
      simp
  · rw [if_neg hsect]
    split
    · rename_i xs periodRaw copyS tsS fn heq
      by_cases h1 : (aget periods (periodRaw.map Char.toLower)).isNone = true
      · rw [if_pos h1]
        simp
      · rw [if_neg h1]
        cases hts : parseInt tsS with
        | none => simp
        | some ts =>
          cases hcs : parseInt copyS with
          | none => simp
          | some copy =>
            dsimp only
            by_cases h2 : copy > 2000
            · rw [if_pos h2]
              simp
            · rw [if_neg h2]
              cases hps : pySetElem (padCopies
                  (agetD st.sec (periodRaw.map Char.toLower) []) copy) (copy - 1)
                  (some ⟨ts, fn⟩) with
              | error err =>
                dsimp only
                intro hcon
                injection hcon with hcon
                subst hcon
                exact absurd (pySetElem_error_eq hps) (by decide)
              | ok copies' => simp
    · simp

/-- C3: the reader fails with `VersionError` exactly when a line declares
a version `v` (raw line starts with `>`, stripped line starts with
`>version=`, remainder parses as a float) with `v > e` or `e - v >= 1.0`
against the expected version `e`; in particular, declaring `1.0` against
expected `2.0` fails, and declaring `2.0` against expected `2.0` passes
the version check. -/
theorem C3_version_gate (periods : List (Chars × Nat)) (e : PyFloat) :
    (∀ (st : RState) (lineRaw : Chars),
      readStep periods e st lineRaw = .error .versionError ↔
        ∃ v, extractVersion lineRaw = some v ∧
          (v.toRat > e.toRat ∨ e.toRat - v.toRat ≥ 1)) ∧
    readTracker periods ⟨2, 0⟩ [">version=1.0".data] = .error .versionError ∧
    readTracker periods ⟨2, 0⟩ [">version=2.0".data] = .ok [] := by
  refine ⟨?_, rfl, rfl⟩
  intro st lineRaw
  by_cases hblank : pyStrip lineRaw = []
  · have hev : extractVersion lineRaw = none := by
      rw [extractVersion, hblank,
        if_neg (by simp [pyStartsWith, List.isPrefixOf])]
    rw [hev]
    simp only [readStep, hblank]
    rw [if_pos trivial]
    constructor
    · intro h; cases h
    · rintro ⟨v, hv, -⟩; cases hv
  · by_cases hheader : pyStartsWith lineRaw ['>'] = true
    · by_cases hvline : pyStartsWith (pyStrip lineRaw) (">version=".data) = true
      · have hev : extractVersion lineRaw =
            parseFloat ((pyStrip lineRaw).drop 9) := by
          rw [extractVersion, if_pos (by rw [hheader, hvline]; rfl)]
        cases hpf : parseFloat ((pyStrip lineRaw).drop 9) with
        | none =>
          rw [hev, hpf]
          simp only [readStep, hvline, hpf, if_neg hblank, hheader]
          rw [if_pos trivial, if_pos trivial]
          constructor
          · intro h; cases h
          · rintro ⟨v, hv, -⟩; cases hv
        | some v0 =>
          rw [hev, hpf]
          simp only [readStep, hvline, hpf, if_neg hblank, hheader]
          rw [if_pos trivial, if_pos trivial]
          by_cases hinc : versionIncompatible v0 e = true
          · rw [if_pos hinc]
            constructor
            · intro _
              exact ⟨v0, rfl, (versionIncompatible_iff v0 e).mp hinc⟩
            · intro _; rfl
          · rw [if_neg hinc]
            constructor
            · intro h; cases h
            · rintro ⟨v, hv, hbad⟩
              injection hv with hv
              subst hv
              exact absurd ((versionIncompatible_iff v0 e).mpr hbad) hinc
      · have hvline' : pyStartsWith (pyStrip lineRaw) (">version=".data) = false := by
          cases hh : pyStartsWith (pyStrip lineRaw) (">version=".data)
          · rfl
          · exact absurd hh hvline
        have hev : extractVersion lineRaw = none := by
          rw [extractVersion, if_neg (by rw [hvline']; simp)]
        rw [hev]
        simp only [readStep, if_neg hblank, hheader, hvline]
        rw [if_pos trivial, if_neg (show ¬ (false = true) from Bool.false_ne_true)]
        constructor
        · intro h; cases h
        · rintro ⟨v, hv, -⟩; cases hv
    · have hheader' : pyStartsWith lineRaw ['>'] = false := by
        cases hh : pyStartsWith lineRaw ['>']
        · rfl
        · exact absurd hh hheader
      have hev : extractVersion lineRaw = none := by
        rw [extractVersion, if_neg (by rw [hheader']; simp)]
      rw [hev]
      constructor
      · intro h
        exact absurd h (readStep_not_versionError_of_not_header periods e st
          lineRaw hblank hheader')
      · rintro ⟨v, hv, -⟩; cases hv

theorem readStep_data_fields (periods : List (Chars × Nat)) (e : PyFloat)
    (st : RState) (p copyS tsS fn : Chars) (t cnum : Int)
    (hp : periodNameOk p = true) (hper : (aget periods p).isSome = true)
    (hcs : '\t' ∉ copyS) (hpc : parseInt copyS = some cnum)
    (hts : '\t' ∉ tsS) (hpt : parseInt tsS = some t)
    (hf : fileNameOk fn = true) (h2000 : ¬ cnum > 2000) :
    readStep periods e st ('\t' :: (p ++ '\t' :: (copyS ++ '\t' :: (tsS ++ '\t' :: fn)))) =
      match pySetElem (padCopies (agetD st.sec p []) cnum) (cnum - 1)
          (some ⟨t, fn⟩) with
      | .error err => .error err
      | .ok copies' => .ok { st with sec := aset st.sec p copies' } := by
  simp only [periodNameOk, Bool.and_eq_true, decide_eq_true_eq] at hp
  obtain ⟨⟨hphead, hpall⟩, hplower⟩ := hp
  simp only [fileNameOk, Bool.and_eq_true] at hf
  obtain ⟨hflast, hfall⟩ := hf
  obtain ⟨c, p', rfl⟩ : ∃ c p', p = c :: p' := by
    cases p with
    | nil => simp at hphead
    | cons c p' => exact ⟨c, p', rfl⟩
  have hchead : isPySpace c = false := by simpa using hphead
  obtain ⟨d, hd⟩ : ∃ d, fn.getLast? = some d := by
    cases hl : fn.getLast? with
    | none => rw [hl] at hflast; simp at hflast
    | some d => exact ⟨d, rfl⟩
  have hdns : isPySpace d = false := by
    rw [hd] at hflast
    simpa using hflast
  have hpall' : ∀ x ∈ c :: p', x ≠ '\t' ∧ x ≠ '\n' := by
    intro x hx
    rw [List.all_eq_true] at hpall
    have := hpall x hx
    simp only [Bool.and_eq_true, decide_eq_true_eq] at this
    exact this
  set body := (c :: p') ++ '\t' :: (copyS ++ '\t' :: (tsS ++ '\t' :: fn)) with hbody
  have hlastbody : body.getLast? = some d := by
    rw [hbody]
    exact getLast?_append_right (getLast?_cons_right (getLast?_append_right
      (getLast?_cons_right (getLast?_append_right (getLast?_cons_right hd)))))
  have hstrip : pyStrip ('\t' :: body) = body :=
    pyStrip_tab_line (by rw [hbody]; rfl) hchead hlastbody hdns
  have hfall' : ∀ x ∈ fn, x ≠ '\t' ∧ x ≠ '\n' := by
    intro x hx
    rw [List.all_eq_true] at hfall
    have := hfall x hx
    simp only [Bool.and_eq_true, decide_eq_true_eq] at this
    exact this
  have hsplit : splitChar '\t' body = [c :: p', copyS, tsS, fn] := by
    rw [hbody, splitChar_append_sep (fun hx => (hpall' _ hx).1 rfl),
      splitChar_append_sep hcs, splitChar_append_sep hts,
      splitChar_no_sep (fun hx => (hfall' _ hx).1 rfl)]
  have hne : body ≠ [] := by rw [hbody]; simp
  rw [show ('\t' :: ((c :: p') ++ '\t' :: (copyS ++ '\t' :: (tsS ++ '\t' :: fn)))) =
    '\t' :: body from rfl]
  simp only [readStep, hstrip]
  rw [if_neg hne]
  have h1 : pyStartsWith ('\t' :: body) ['>'] = false := rfl
  have h2 : pyStartsWith ('\t' :: body) ['\t'] = true := rfl
  rw [h1, h2]
  simp only [Bool.false_eq_true, if_false, Bool.not_true, hsplit]
  rw [hplower]
  obtain ⟨pv, hpv⟩ := Option.isSome_iff_exists.mp hper
  rw [hpv]
  simp only [Option.isNone_some, Bool.false_eq_true, if_false]
  rw [hpt, hpc]
  dsimp only
  rw [if_neg h2000]

/-- C9: the reader validates copy numbers only for being integers and for
not exceeding 2000, never for being positive: a data line whose copy
number is 0, for a period with no earlier data lines in its section (here
the first data line of its group), drives `copies[copy-1]` to index `-1`
of an empty list, and `read_tracker` fails with an uncaught `IndexError`
rather than a format error. -/
theorem C9_copy_zero_index_error (periods : List (Chars × Nat)) (e : PyFloat)
    (vs : Chars) (v : PyFloat) (g p copyS tsS fn : Chars) (t : Int)
    (hvs : versionStrOk vs = true) (hv : parseFloat vs = some v)
    (hnz : v.num ≠ 0) (hcompat : versionIncompatible v e = false)
    (hg : groupNameOk g = true)
    (hp : periodNameOk p = true) (hper : (aget periods p).isSome = true)
    (hcs : '\t' ∉ copyS) (hpc : parseInt copyS = some 0)
    (hts : '\t' ∉ tsS) (hpt : parseInt tsS = some t)
    (hf : fileNameOk fn = true) :
    readTracker periods e [">version=".data ++ vs, g,
      '\t' :: (p ++ '\t' :: (copyS ++ '\t' :: (tsS ++ '\t' :: fn)))] =
      .error .indexError := by
  rw [readTracker, List.foldlM_cons,
    readStep_version periods e ⟨none, [], [], none⟩ vs v hvs hv hcompat]
  show (do
    let st ← [g, '\t' :: (p ++ '\t' :: (copyS ++ '\t' :: (tsS ++ '\t' :: fn)))].foldlM
      (readStep periods e) ⟨some v, [], [], none⟩
    pure (flushSection st) : Except PyErr Tracker) = .error .indexError
  rw [List.foldlM_cons, readStep_group periods e ⟨some v, [], [], none⟩ g
    (by simp [versionFalsy, hnz]) hg]
  show (do
    let st ← ['\t' :: (p ++ '\t' :: (copyS ++ '\t' :: (tsS ++ '\t' :: fn)))].foldlM
      (readStep periods e) ⟨some v, [], [], some g⟩
    pure (flushSection st) : Except PyErr Tracker) = .error .indexError
  rw [List.foldlM_cons, readStep_data_fields periods e ⟨some v, [], [], some g⟩
    p copyS tsS fn t 0 hp hper hcs hpc hts hpt hf (by omega)]
  rfl

/-- Witness for C9: a concrete tracker stream whose single data line
declares copy number 0 for the hourly period. -/
theorem C9_witness :
    (versionStrOk "2.0".data = true ∧ parseFloat "2.0".data = some ⟨20, 1⟩ ∧
      (20 : Int) ≠ 0 ∧ versionIncompatible ⟨20, 1⟩ ⟨2, 0⟩ = false ∧
      groupNameOk "g.txt".data = true ∧ periodNameOk "hourly".data = true ∧
      (aget [("hourly".data, 3600)] "hourly".data).isSome = true ∧
      '\t' ∉ "0".data ∧ parseInt "0".data = some 0 ∧
      '\t' ∉ "55".data ∧ parseInt "55".data = some 55 ∧
      fileNameOk "f.txt".data = true) ∧
    readTracker [("hourly".data, 3600)] ⟨2, 0⟩ [">version=".data ++ "2.0".data,
      "g.txt".data,
      '\t' :: ("hourly".data ++ '\t' :: ("0".data ++ '\t' ::
        ("55".data ++ '\t' :: "f.txt".data)))] = .error .indexError :=
  ⟨⟨by decide, by decide, by decide, by decide, by decide, by decide, by decide,
    by decide, by decide, by decide, by decide, by decide⟩,
    C9_copy_zero_index_error [("hourly".data, 3600)] ⟨2, 0⟩ "2.0".data ⟨20, 1⟩
      "g.txt".data "hourly".data "0".data "55".data "f.txt".data 55
      (by decide) (by decide) (by decide) (by decide) (by decide) (by decide)
      (by decide) (by decide) (by decide) (by decide) (by decide) (by decide)⟩
